import Mathlib

/-!
# Verification of the Genesis task-deduplication and plugin-ordering core

Shallow embedding of the `TaskRegistry` (task-registry module) and of the
plugin execution graph / lifecycle phase runners (`executor.ts`) of the
Genesis repository, together with theorems settling the frozen claims
about registration idempotence, topological ordering, cycle detection,
failure propagation and lifecycle-phase error handling.

Executors and plugin lifecycle methods are deterministic asynchronous
functions in the source; they are embedded as a pair of an identity tag
(so that distinct executor functions can be told apart) and a
deterministic behaviour (return a result, or throw).  `executeAll` and
the phase runners additionally return the trace of executor/lifecycle
invocations that happened, which models the observable side effects of
the source (including side effects that happened before an exception).
-/

namespace Genesis

/-- Embeds `TaskResult` (`{ ok, details?, error? }`). -/
structure TaskResult where
  ok : Bool
  details : Option String := none
  error : Option String := none
deriving DecidableEq, Repr

/-- Deterministic behaviour of a task executor when invoked: it either
resolves to a `TaskResult` or throws an error with a message. -/
inductive ExecBehavior where
  | ret (r : TaskResult)
  | throws (msg : String)
deriving DecidableEq, Repr

/-- Embeds `Task`.  The executor function is represented by an identity
tag plus its deterministic behaviour `run`. -/
structure Task where
  id : String
  description : String
  tag : Nat
  run : ExecBehavior
  priority : Option Int := none
  dependsOn : Option (List String) := none
deriving DecidableEq, Repr

/-- Embeds the task status union `"pending" | "running" | "completed" | "failed"`. -/
inductive TaskStatus where
  | pending
  | running
  | completed
  | failed
deriving DecidableEq, Repr

/-- Embeds `TaskState` (registry-internal wrapper). -/
structure TaskState where
  task : Task
  status : TaskStatus
  result : Option TaskResult := none
  error : Option String := none
deriving DecidableEq, Repr

/-- Embeds the `tasks : Map<TaskId, TaskState>` field of `TaskRegistry`
as an association list in insertion order (a JS `Map` iterates keys in
insertion order, which the source relies on). -/
structure TaskRegistry where
  tasks : List (String × TaskState)
deriving DecidableEq, Repr

/-- A freshly constructed registry. -/
def emptyRegistry : TaskRegistry := ⟨[]⟩

/-- `Map.get`: the value stored at key `i` (first entry with that key). -/
def findA {α : Type} : List (String × α) → String → Option α
  | [], _ => none
  | (k, v) :: rest, i => if k = i then some v else findA rest i

/-- `Map.set`: replace the value if the key is present (keeping its
position, as a JS `Map` does), otherwise append the new entry. -/
def setAssoc {α : Type} : List (String × α) → String → α → List (String × α)
  | [], i, v => [(i, v)]
  | (k, w) :: rest, i, v =>
    if k = i then (i, v) :: rest else (k, w) :: setAssoc rest i v

/-- Embeds `TaskRegistry.has` / `this.tasks.has(task.id)`. -/
def TaskRegistry.hasId (reg : TaskRegistry) (i : String) : Bool :=
  (findA reg.tasks i).isSome

/-- Embeds `TaskRegistry.register`: if a task with the same id already
exists the call is a silent no-op, otherwise the task is stored with
status `pending`. -/
def TaskRegistry.register (reg : TaskRegistry) (t : Task) : TaskRegistry :=
  if reg.hasId t.id then reg
  else ⟨reg.tasks ++ [(t.id, { task := t, status := TaskStatus.pending })]⟩

/-- `task.dependsOn ?? []`. -/
def taskDeps (t : Task) : List String := t.dependsOn.getD []

/-- `task.priority ?? 0`. -/
def taskPriority (t : Task) : Int := t.priority.getD 0

/-! ## The depth-first topological sort

Both `TaskRegistry.topologicalSort` and `buildPluginGraph` use the same
depth-first, post-order strategy with a `visited`/`result` list and an
in-progress `temp` set.  The JS `visited` set and `result` array always
hold exactly the same ids (both are extended together), so the embedding
keeps a single `result` list.  The two sources differ only in how an id
with no stored node is treated: the task registry silently skips it,
`buildPluginGraph` throws `Missing plugin ...`; this is the `strict`
flag.  The JS recursion is embedded with a fuel parameter; the callers
pass `n + 1` fuel where `n` bounds the number of stored ids, which is
proved below to never run out (the in-progress set only ever holds
distinct stored ids). -/

/-- DFS state: the in-progress set `temp` (in stack order) and the
post-order `result` list (which doubles as the `visited` set). -/
structure SortSt where
  temp : List String
  result : List String
deriving DecidableEq, Repr

/-- Errors of the DFS: a cycle (`Cyclic ... dependency ...: id`), a
missing node in strict mode (`Missing plugin 'id' ...`), or fuel
exhaustion (an artifact of the embedding, proved unreachable). -/
inductive SortErr where
  | cyclic (id : String)
  | missing (id : String)
  | fuel
deriving DecidableEq, Repr

/-- The message of the error thrown by `TaskRegistry.topologicalSort`. -/
def taskErrMessage : SortErr → String
  | SortErr.cyclic i => "Cyclic task dependency detected: " ++ i
  | SortErr.missing i => "Missing task '" ++ i ++ "'"
  | SortErr.fuel => "fuel exhausted"

/-- The message of the error thrown by `buildPluginGraph`. -/
def pluginErrMessage : SortErr → String
  | SortErr.cyclic i => "Cyclic plugin dependency involving '" ++ i ++ "'"
  | SortErr.missing i => "Missing plugin '" ++ i ++ "' referenced in dependency"
  | SortErr.fuel => "fuel exhausted"

/-- Short-circuiting fold of `visit` over a dependency list (the
`for (const depId of deps) visit(depId)` loop; a throw propagates). -/
def visitFold (f : String → SortSt → Except SortErr SortSt) :
    List String → SortSt → Except SortErr SortSt
  | [], st => Except.ok st
  | d :: ds, st =>
    match f d st with
    | Except.error e => Except.error e
    | Except.ok st' => visitFold f ds st'

/-- The recursive `visit` of both sorts, over an abstract graph
`g : id → Option (list of dependency ids)` (`none` = no stored node).
Order of operations follows the source: visited check, in-progress
check, lookup (skip or throw when absent), push onto `temp`, visit the
dependencies, pop from `temp`, append to the result. -/
def visit (g : String → Option (List String)) (strict : Bool) :
    Nat → String → SortSt → Except SortErr SortSt
  | 0, _, _ => Except.error SortErr.fuel
  | fuel + 1, i, st =>
    if i ∈ st.result then Except.ok st
    else if i ∈ st.temp then Except.error (SortErr.cyclic i)
    else
      match g i with
      | none => if strict then Except.error (SortErr.missing i) else Except.ok st
      | some deps =>
        match visitFold (visit g strict fuel) deps ⟨st.temp ++ [i], st.result⟩ with
        | Except.error e => Except.error e
        | Except.ok st2 => Except.ok ⟨st2.temp.erase i, st2.result ++ [i]⟩

/-- The dependency function of a registry: ids map to the `dependsOn`
list of the stored task (`?? []`), unregistered ids to `none`. -/
def TaskRegistry.graph (reg : TaskRegistry) : String → Option (List String) :=
  fun i => (findA reg.tasks i).map (fun st => taskDeps st.task)

/-- Stable insertion (descending priority): `x` is placed before the
first element of strictly smaller priority, hence after all earlier
elements of greater-or-equal priority. -/
def insertDesc (p : String → Int) (x : String) : List String → List String
  | [] => [x]
  | y :: ys => if p x < p y then y :: insertDesc p x ys else x :: y :: ys

/-- Stable sort by descending priority, embedding the JS stable
`Array.prototype.sort` with comparator `priorityB - priorityA`. -/
def sortDescBy (p : String → Int) (l : List String) : List String :=
  l.foldr (insertDesc p) []

/-- The priority of the task stored at `i` (`this.tasks.get(i)?.task.priority ?? 0`). -/
def TaskRegistry.priorityOf (reg : TaskRegistry) (i : String) : Int :=
  ((findA reg.tasks i).map (fun st => taskPriority st.task)).getD 0

/-- `Array.from(this.tasks.keys())` sorted by descending priority. -/
def TaskRegistry.sortedIds (reg : TaskRegistry) : List String :=
  sortDescBy reg.priorityOf (reg.tasks.map Prod.fst)

/-- Embeds `TaskRegistry.topologicalSort`: run `visit` on every id in
priority order; an uncaught throw aborts the whole sort. -/
def TaskRegistry.topologicalSort (reg : TaskRegistry) :
    Except SortErr (List String) :=
  match visitFold (visit reg.graph false (reg.tasks.length + 1))
      reg.sortedIds ⟨[], []⟩ with
  | Except.error e => Except.error e
  | Except.ok st => Except.ok st.result

/-! ## `executeAll` -/

/-- The result recorded for a task skipped because a dependency failed. -/
def depFailedResult : TaskResult :=
  { ok := false, error := some "Dependencies failed" }

/-- Whether the stored state of id `d` has status `failed`
(`this.tasks.get(depId)?.status === "failed"`; an absent id compares
unequal). -/
def depFailed (tasks : List (String × TaskState)) (d : String) : Bool :=
  match findA tasks d with
  | some s =>
    match s.status with
    | TaskStatus.failed => true
    | _ => false
  | none => false

/-- State threaded through the execution loop of `executeAll`: the task
states, the `results` map, and the trace of executor invocations
`(task id, executor tag)` in order. -/
structure ExecSt where
  tasks : List (String × TaskState)
  results : List (String × TaskResult)
  invoked : List (String × Nat)
deriving DecidableEq, Repr

/-- One iteration of the execution loop of `executeAll` for the sorted
id `i`: skip ids with no state; mark the task failed with a
"Dependencies failed" result (executor not invoked) when some dependency
has failed; otherwise invoke the executor and record completion,
failure, or the thrown error as a failure result. -/
def execStep (st : ExecSt) (i : String) : ExecSt :=
  match findA st.tasks i with
  | none => st
  | some ts =>
    if (taskDeps ts.task).any (depFailed st.tasks) then
      let ts' := { ts with status := TaskStatus.failed, result := some depFailedResult }
      { tasks := setAssoc st.tasks i ts',
        results := setAssoc st.results i depFailedResult,
        invoked := st.invoked }
    else
      match ts.task.run with
      | ExecBehavior.ret r =>
        let ts' := { ts with
          status := if r.ok then TaskStatus.completed else TaskStatus.failed,
          result := some r }
        { tasks := setAssoc st.tasks i ts',
          results := setAssoc st.results i r,
          invoked := st.invoked ++ [(i, ts.task.tag)] }
      | ExecBehavior.throws msg =>
        let r : TaskResult := { ok := false, error := some msg }
        let ts' : TaskState :=
          { task := ts.task, status := TaskStatus.failed, result := some r,
            error := some msg }
        { tasks := setAssoc st.tasks i ts',
          results := setAssoc st.results i r,
          invoked := st.invoked ++ [(i, ts.task.tag)] }

/-- The task state recorded by `executeAll` for a task skipped because
a dependency failed. -/
def skippedState (ts : TaskState) : TaskState :=
  { ts with status := TaskStatus.failed, result := some depFailedResult }

/-- The result recorded by `executeAll` when the executor of a task in
state `ts` is invoked: the returned `TaskResult`, or `{ ok: false,
error: message }` for a throw. -/
def invokedResult (ts : TaskState) : TaskResult :=
  match ts.task.run with
  | ExecBehavior.ret r => r
  | ExecBehavior.throws msg => { ok := false, error := some msg }

/-- The task state recorded by `executeAll` after invoking the executor
of a task in state `ts`. -/
def invokedState (ts : TaskState) : TaskState :=
  match ts.task.run with
  | ExecBehavior.ret r =>
    { ts with
      status := if r.ok then TaskStatus.completed else TaskStatus.failed,
      result := some r }
  | ExecBehavior.throws msg =>
    { task := ts.task, status := TaskStatus.failed,
      result := some { ok := false, error := some msg }, error := some msg }

/-- Observable outcome of `executeAll`: the returned `results` map (or
the propagated sort error), the final task states, and the trace of
executor invocations. -/
structure ExecLog where
  outcome : Except SortErr (List (String × TaskResult))
  finalTasks : List (String × TaskState)
  invoked : List (String × Nat)

/-- Embeds `TaskRegistry.executeAll`: empty registries return an empty
map at once; otherwise the topological sort runs first (a cycle error
propagates before any executor is invoked), then the sorted ids are
executed in order. -/
def TaskRegistry.executeAll (reg : TaskRegistry) : ExecLog :=
  if reg.tasks.isEmpty then ⟨Except.ok [], reg.tasks, []⟩
  else
    match reg.topologicalSort with
    | Except.error e => ⟨Except.error e, reg.tasks, []⟩
    | Except.ok order =>
      let fin := order.foldl execStep ⟨reg.tasks, [], []⟩
      ⟨Except.ok fin.results, fin.tasks, fin.invoked⟩

/-- A dependency of the task in state `ts` ends the run with status
`failed`.  Because registered dependencies are executed before their
dependents and an unregistered id never has a state, this is exactly the
condition under which `executeAll` skips the task (see
`executeAll_processed`). -/
def DepFailedFinal (reg : TaskRegistry) (ts : TaskState) : Prop :=
  ∃ d, d ∈ taskDeps ts.task ∧
    (findA reg.executeAll.finalTasks d).map TaskState.status =
      some TaskStatus.failed

/-! ## The plugin execution graph and lifecycle phases (`executor.ts`) -/

/-- Embeds `GenesisPluginCategory` (`"tool" | "sdk" | "language"`). -/
inductive PluginCategory where
  | tool
  | sdk
  | language
deriving DecidableEq, Repr

/-- Embeds `PluginStatus` (`"unknown" | "present" | "missing"`). -/
inductive PluginStatus where
  | unknown
  | present
  | missing
deriving DecidableEq, Repr

/-- Embeds `GenesisPluginInstance` (its fields relevant to the core:
plugin options are opaque and omitted). -/
structure PluginInstance where
  id : String
  category : PluginCategory
deriving DecidableEq, Repr

/-- Embeds `DetectResult`. -/
structure DetectResult where
  ok : Bool
  details : Option String := none
deriving DecidableEq, Repr

/-- Embeds `ApplyResult`. -/
structure ApplyResult where
  ok : Bool
  didChange : Bool
  details : Option String := none
deriving DecidableEq, Repr

/-- Embeds `ValidateResult`. -/
structure ValidateResult where
  ok : Bool
  message : Option String := none
deriving DecidableEq, Repr

/-- Deterministic behaviour of one plugin lifecycle method when
invoked: resolve to a result, or throw. -/
inductive PhaseBehavior (ρ : Type) where
  | ret (r : ρ)
  | throws (msg : String)
deriving DecidableEq, Repr

/-- Embeds the lifecycle implementation object of `GenesisPlugin` as
consumed by `executor.ts`: optional `dependsOn`, optional lifecycle
methods (each a deterministic behaviour), and `registerTasks` embedded
as the list of tasks the method registers on the shared registry. -/
structure GenesisPlugin where
  dependsOn : Option (List String) := none
  detect : Option (PhaseBehavior DetectResult) := none
  registerTasks : Option (List Task) := none
  apply : Option (PhaseBehavior ApplyResult) := none
  validate : Option (PhaseBehavior ValidateResult) := none
deriving DecidableEq, Repr

/-- Embeds `PluginExecutionNode` (`instance` is a Lean keyword, so the
field is named `inst`). -/
structure PluginExecutionNode where
  inst : PluginInstance
  plugin : GenesisPlugin
deriving DecidableEq, Repr

/-- `getDependencies`: `node.plugin.dependsOn ?? []`. -/
def getDependencies (node : PluginExecutionNode) : List String :=
  node.plugin.dependsOn.getD []

/-- The `byId` map of `buildPluginGraph`: built with `Map.set` over the
input nodes in order, so a later node with a duplicate id replaces an
earlier one. -/
def buildById (nodes : List PluginExecutionNode) :
    List (String × PluginExecutionNode) :=
  nodes.foldl (fun m n => setAssoc m n.inst.id n) []

/-- The dependency function of the plugin graph: ids map via `byId` to
the node's `dependsOn ?? []`, absent ids to `none`. -/
def pluginGraph (nodes : List PluginExecutionNode) :
    String → Option (List String) :=
  fun i => (findA (buildById nodes) i).map getDependencies

/-- Embeds `buildPluginGraph`: run the strict DFS (`Missing plugin`
thrown for an undeclared dependency id) over every input node's
instance id in input order; on success the emitted ids are resolved
through `byId` (the source pushes the looked-up node at emission time,
which is the same thing because `byId` never changes). -/
def buildPluginGraph (nodes : List PluginExecutionNode) :
    Except SortErr (List PluginExecutionNode) :=
  match visitFold (visit (pluginGraph nodes) true (nodes.length + 1))
      (nodes.map (fun n => n.inst.id)) ⟨[], []⟩ with
  | Except.error e => Except.error e
  | Except.ok st => Except.ok (st.result.filterMap (findA (buildById nodes)))

/-- Embeds `DetectSummary`. -/
structure DetectSummary where
  id : String
  category : PluginCategory
  status : PluginStatus
  details : Option String := none
deriving DecidableEq, Repr

/-- Embeds `ApplySummary`. -/
structure ApplySummary where
  id : String
  category : PluginCategory
  ok : Bool
  didChange : Bool
  details : Option String := none
deriving DecidableEq, Repr

/-- Embeds `ValidateSummary`. -/
structure ValidateSummary where
  id : String
  category : PluginCategory
  ok : Bool
  message : Option String := none
deriving DecidableEq, Repr

/-- The summary pushed by `runDetect` for a plugin with no `detect`. -/
def trivialDetectSummary (n : PluginExecutionNode) : DetectSummary :=
  { id := n.inst.id, category := n.inst.category, status := PluginStatus.unknown }

/-- The summary pushed by `runDetect` from a `detect` result. -/
def detectSummaryOf (n : PluginExecutionNode) (r : DetectResult) : DetectSummary :=
  { id := n.inst.id
    category := n.inst.category
    status := if r.ok then PluginStatus.present else PluginStatus.missing
    details := r.details }

/-- The loop of `runDetect` from absolute node index `k`, carrying the
accumulated summaries and the indices of the nodes whose `detect`
method has been invoked.  A plugin with no `detect` contributes a
`status: "unknown"` summary without any invocation; a throw propagates
out of the loop (there is no try/catch in the source), losing the
summaries but keeping the invocation trace. -/
def runDetectFrom :
    List PluginExecutionNode → Nat → List DetectSummary → List Nat →
      Except String (List DetectSummary) × List Nat
  | [], _, acc, inv => (Except.ok acc, inv)
  | n :: rest, k, acc, inv =>
    match n.plugin.detect with
    | none => runDetectFrom rest (k + 1) (acc ++ [trivialDetectSummary n]) inv
    | some (PhaseBehavior.throws msg) => (Except.error msg, inv ++ [k])
    | some (PhaseBehavior.ret r) =>
      runDetectFrom rest (k + 1) (acc ++ [detectSummaryOf n r]) (inv ++ [k])

/-- Embeds `runDetect`: summaries (or the uncaught thrown error) and
the indices of the nodes whose `detect` was invoked. -/
def runDetect (nodes : List PluginExecutionNode) :
    Except String (List DetectSummary) × List Nat :=
  runDetectFrom nodes 0 [] []

/-- Errors escaping `runApply`: a task ordering error propagated from
`executeAll`, or an uncaught throw of a plugin `apply` method. -/
inductive RunErr where
  | taskSortErr (e : SortErr)
  | pluginThrew (msg : String)
deriving DecidableEq, Repr

/-- Phase 1 of `runApply`: every node's `registerTasks` runs in order
against the shared registry. -/
def registerAllTasks (nodes : List PluginExecutionNode)
    (reg : TaskRegistry) : TaskRegistry :=
  nodes.foldl
    (fun r n => (n.plugin.registerTasks.getD []).foldl TaskRegistry.register r)
    reg

/-- The summary pushed by `runApply` for a plugin with no `apply`. -/
def trivialApplySummary (n : PluginExecutionNode) : ApplySummary :=
  { id := n.inst.id, category := n.inst.category, ok := true, didChange := false }

/-- The summary pushed by `runApply` from an `apply` result. -/
def applySummaryOf (n : PluginExecutionNode) (r : ApplyResult) : ApplySummary :=
  { id := n.inst.id
    category := n.inst.category
    ok := r.ok
    didChange := r.didChange
    details := r.details }

/-- Phase 3 loop of `runApply` (same shape as `runDetectFrom`): a
missing `apply` contributes `ok: true, didChange: false` with no
invocation; a throw propagates uncaught. -/
def runApplyFrom :
    List PluginExecutionNode → Nat → List ApplySummary → List Nat →
      Except RunErr (List ApplySummary) × List Nat
  | [], _, acc, inv => (Except.ok acc, inv)
  | n :: rest, k, acc, inv =>
    match n.plugin.apply with
    | none => runApplyFrom rest (k + 1) (acc ++ [trivialApplySummary n]) inv
    | some (PhaseBehavior.throws msg) =>
      (Except.error (RunErr.pluginThrew msg), inv ++ [k])
    | some (PhaseBehavior.ret r) =>
      runApplyFrom rest (k + 1) (acc ++ [applySummaryOf n r]) (inv ++ [k])

/-- Observable outcome of `runApply`. -/
structure RunApplyOut where
  outcome : Except RunErr (List ApplySummary)
  applyInvoked : List Nat
  taskLog : ExecLog

/-- Embeds `runApply`: phase 1 registers every node's tasks on the
shared registry, phase 2 is one registry-wide `executeAll` (whose
ordering error would propagate out before any `apply` runs; individual
task failures are only logged), phase 3 runs the `apply` methods. -/
def runApply (nodes : List PluginExecutionNode) (reg : TaskRegistry) :
    RunApplyOut :=
  match (registerAllTasks nodes reg).executeAll.outcome with
  | Except.error e =>
    ⟨Except.error (RunErr.taskSortErr e), [],
      (registerAllTasks nodes reg).executeAll⟩
  | Except.ok _ =>
    ⟨(runApplyFrom nodes 0 [] []).1, (runApplyFrom nodes 0 [] []).2,
      (registerAllTasks nodes reg).executeAll⟩

/-- The summary pushed by `runValidate` for a plugin with no `validate`. -/
def trivialValidateSummary (n : PluginExecutionNode) : ValidateSummary :=
  { id := n.inst.id, category := n.inst.category, ok := true }

/-- The summary pushed by `runValidate` from a `validate` result. -/
def validateSummaryOf (n : PluginExecutionNode) (r : ValidateResult) : ValidateSummary :=
  { id := n.inst.id, category := n.inst.category, ok := r.ok, message := r.message }

/-- The loop of `runValidate` (same shape as `runDetectFrom`): a
missing `validate` contributes `ok: true` with no invocation. -/
def runValidateFrom :
    List PluginExecutionNode → Nat → List ValidateSummary → List Nat →
      Except String (List ValidateSummary) × List Nat
  | [], _, acc, inv => (Except.ok acc, inv)
  | n :: rest, k, acc, inv =>
    match n.plugin.validate with
    | none => runValidateFrom rest (k + 1) (acc ++ [trivialValidateSummary n]) inv
    | some (PhaseBehavior.throws msg) => (Except.error msg, inv ++ [k])
    | some (PhaseBehavior.ret r) =>
      runValidateFrom rest (k + 1) (acc ++ [validateSummaryOf n r]) (inv ++ [k])

/-- Embeds `runValidate`. -/
def runValidate (nodes : List PluginExecutionNode) :
    Except String (List ValidateSummary) × List Nat :=
  runValidateFrom nodes 0 [] []

/-! ## Specification-level notions used by the theorems -/

/-- The dependency list of `i` in the abstract graph (`[]` when `i` has
no stored node). -/
def gdeps (g : String → Option (List String)) (i : String) : List String :=
  (g i).getD []

/-- A dependency edge: `a` has a stored node and lists `b` among its
dependencies. -/
def EdgeB (g : String → Option (List String)) (a b : String) : Prop :=
  (g a).isSome = true ∧ b ∈ gdeps g a

/-- A nonempty dependency path from `a` to `b` whose intermediate nodes
are `p` (in order). -/
def PathTo (g : String → Option (List String)) :
    String → List String → String → Prop
  | a, [], b => EdgeB g a b
  | a, c :: cs, b => EdgeB g a c ∧ PathTo g c cs b

/-- The dependency graph has a cycle. -/
def HasCycle (g : String → Option (List String)) : Prop :=
  ∃ x p, PathTo g x p x

instance decEdgeB (g : String → Option (List String)) (a b : String) :
    Decidable (EdgeB g a b) :=
  inferInstanceAs (Decidable (_ ∧ _))

def decPathTo (g : String → Option (List String)) :
    (p : List String) → (a b : String) → Decidable (PathTo g a p b)
  | [], a, b => inferInstanceAs (Decidable (EdgeB g a b))
  | c :: cs, a, b =>
    have : Decidable (PathTo g c cs b) := decPathTo g cs c b
    inferInstanceAs (Decidable (EdgeB g a c ∧ PathTo g c cs b))

instance (g : String → Option (List String)) (a : String) (p : List String)
    (b : String) : Decidable (PathTo g a p b) :=
  decPathTo g p a b

/-- Invariant of the DFS state: the in-progress set and the emitted
result are duplicate-free and disjoint. -/
def SortInv (st : SortSt) : Prop :=
  st.temp.Nodup ∧ st.result.Nodup ∧ ∀ x, x ∈ st.temp → x ∉ st.result

/-- `res` is a dependency-respecting order: wherever it is split around
an element `x`, every stored dependency of `x` already occurs in the
left part. -/
def GoodRes (g : String → Option (List String)) (res : List String) : Prop :=
  ∀ l x r, res = l ++ x :: r → ∀ d, d ∈ gdeps g x → (g d).isSome = true → d ∈ l

/-- `res` is closed under dependencies: every emitted id's stored
dependency list is contained in `res` (holds for the strict DFS, which
throws on an id with no stored node instead of skipping it). -/
def ClosedRes (g : String → Option (List String)) (res : List String) : Prop :=
  ∀ x, x ∈ res → ∀ d, d ∈ gdeps g x → d ∈ res

/-- Postcondition of a successful `visit` call. -/
def VisitSpec (g : String → Option (List String)) (strict : Bool) (i : String)
    (st st' : SortSt) : Prop :=
  st'.temp = st.temp ∧
  (∃ ext, st'.result = st.result ++ ext ∧
    ∀ x, x ∈ ext → (g x).isSome = true ∧ x ∉ st.temp) ∧
  SortInv st' ∧
  (i ∈ st'.result ∨ (g i = none ∧ strict = false)) ∧
  (GoodRes g st.result → GoodRes g st'.result) ∧
  (strict = true → ClosedRes g st.result → ClosedRes g st'.result)

/-- Postcondition of a successful `visitFold` call over `ds`. -/
def FoldSpec (g : String → Option (List String)) (strict : Bool)
    (ds : List String) (st st' : SortSt) : Prop :=
  st'.temp = st.temp ∧
  (∃ ext, st'.result = st.result ++ ext ∧
    ∀ x, x ∈ ext → (g x).isSome = true ∧ x ∉ st.temp) ∧
  SortInv st' ∧
  (∀ d, d ∈ ds → d ∈ st'.result ∨ (g d = none ∧ strict = false)) ∧
  (GoodRes g st.result → GoodRes g st'.result) ∧
  (strict = true → ClosedRes g st.result → ClosedRes g st'.result)

/-- Position of the first occurrence of `x` in a list (list length when
absent). -/
def posIn : List String → String → Nat
  | [], _ => 0
  | y :: ys, x => if y = x then 0 else posIn ys x + 1

end Genesis

namespace Genesis

/-! ## Concrete scenarios named by the spec and the claims -/

/-- Task A of the priority-ordering scenario (priority 200). -/
def tA : Task :=
  { id := "A", description := "a", tag := 1,
    run := ExecBehavior.ret { ok := true }, priority := some 200 }

/-- Task B of the priority-ordering scenario (priority 100). -/
def tB : Task :=
  { id := "B", description := "b", tag := 2,
    run := ExecBehavior.ret { ok := true }, priority := some 100 }

/-- Task C of the priority-ordering scenario (priority 50). -/
def tC : Task :=
  { id := "C", description := "c", tag := 3,
    run := ExecBehavior.ret { ok := true }, priority := some 50 }

/-- The three tasks registered in an order different from their
priority order. -/
def regABC : TaskRegistry :=
  ((emptyRegistry.register tB).register tC).register tA

/-- Low-priority dependency of the dependency-ordering scenario. -/
def prioA : Task :=
  { id := "A", description := "dep", tag := 1,
    run := ExecBehavior.ret { ok := true }, priority := some 10 }

/-- High-priority dependent of the dependency-ordering scenario. -/
def prioB : Task :=
  { id := "B", description := "main", tag := 2,
    run := ExecBehavior.ret { ok := true }, priority := some 100,
    dependsOn := some ["A"] }

/-- Registry where the higher-priority task depends on the
lower-priority one. -/
def regPrio : TaskRegistry := (emptyRegistry.register prioA).register prioB

/-- Task A of the cycle scenario (`A dependsOn B`). -/
def cycTaskA : Task :=
  { id := "A", description := "a", tag := 1,
    run := ExecBehavior.ret { ok := true }, dependsOn := some ["B"] }

/-- Task B of the cycle scenario (`B dependsOn A`). -/
def cycTaskB : Task :=
  { id := "B", description := "b", tag := 2,
    run := ExecBehavior.ret { ok := true }, dependsOn := some ["A"] }

/-- Registry with the two-task dependency cycle. -/
def cycReg : TaskRegistry := (emptyRegistry.register cycTaskA).register cycTaskB

/-- A task that depends on its own id. -/
def selfTask : Task :=
  { id := "a", description := "self", tag := 9,
    run := ExecBehavior.ret { ok := true }, dependsOn := some ["a"] }

/-- Registry holding only the self-dependent task. -/
def regSelf : TaskRegistry := emptyRegistry.register selfTask

/-- A task that lists a dependency id registered by no task. -/
def missTask : Task :=
  { id := "t", description := "m", tag := 7,
    run := ExecBehavior.ret { ok := true }, dependsOn := some ["m"] }

/-- Registry holding only the task with the unregistered dependency. -/
def regMiss : TaskRegistry := emptyRegistry.register missTask

/-- First failing task of the partial-failure scenario. -/
def failT1 : Task :=
  { id := "t1", description := "f1", tag := 1,
    run := ExecBehavior.throws "boom1", priority := some 30 }

/-- Second failing task of the partial-failure scenario. -/
def failT2 : Task :=
  { id := "t2", description := "f2", tag := 2,
    run := ExecBehavior.throws "boom2", priority := some 20 }

/-- A task depending on `failT2` only (no dependency on `failT1`). -/
def failT3 : Task :=
  { id := "t3", description := "ok3", tag := 3,
    run := ExecBehavior.ret { ok := true }, priority := some 10,
    dependsOn := some ["t2"] }

/-- Registry of the partial-failure scenario: two independent failures
and a task depending on the second one only. -/
def regT123 : TaskRegistry :=
  ((emptyRegistry.register failT1).register failT2).register failT3

/-- A failing task and a dependent of it (failure-propagation
scenario). -/
def propA : Task :=
  { id := "A", description := "a", tag := 1,
    run := ExecBehavior.throws "boom", priority := some 100 }

/-- Dependent of `propA`. -/
def propB : Task :=
  { id := "B", description := "b", tag := 2,
    run := ExecBehavior.ret { ok := true }, dependsOn := some ["A"] }

/-- A task with no relation to `propA`. -/
def propC : Task :=
  { id := "C", description := "c", tag := 3,
    run := ExecBehavior.ret { ok := true } }

/-- Registry of the failure-propagation scenario. -/
def regProp : TaskRegistry :=
  ((emptyRegistry.register propA).register propB).register propC

/-- A task whose executor throws, or returns a not-ok result. -/
def FailingBehavior (t : Task) : Prop :=
  (∃ msg, t.run = ExecBehavior.throws msg) ∨
    (∃ r, t.run = ExecBehavior.ret r ∧ r.ok = false)

/-- Some input plugin node lists a dependency id carried by no input
node (an undeclared dependency). -/
def HasMissingDep (nodes : List PluginExecutionNode) : Prop :=
  ∃ n d, n ∈ nodes ∧ d ∈ getDependencies n ∧
    d ∉ nodes.map (fun m => m.inst.id)

/-- A lifecycle implementation whose three methods all throw. -/
def throwingPlugin : GenesisPlugin where
  detect := some (PhaseBehavior.throws "dboom")
  apply := some (PhaseBehavior.throws "boom")
  validate := some (PhaseBehavior.throws "vboom")

/-- A lifecycle implementation whose three methods all succeed. -/
def succeedingPlugin : GenesisPlugin where
  detect := some (PhaseBehavior.ret { ok := true })
  apply := some (PhaseBehavior.ret { ok := true, didChange := true })
  validate := some (PhaseBehavior.ret { ok := true })

/-- First node of the lifecycle-failure scenario: all methods throw. -/
def pThrow : PluginExecutionNode :=
  ⟨{ id := "p1", category := PluginCategory.tool }, throwingPlugin⟩

/-- Second node of the lifecycle-failure scenario: all methods succeed. -/
def pOk : PluginExecutionNode :=
  ⟨{ id := "p2", category := PluginCategory.sdk }, succeedingPlugin⟩

/-- The node list of the lifecycle-failure scenario. -/
def nodesThrow : List PluginExecutionNode := [pThrow, pOk]

/-- A node omitting every lifecycle method. -/
def pOmit : PluginExecutionNode :=
  ⟨{ id := "o1", category := PluginCategory.language }, {}⟩

/-- The node list of the omitted-lifecycle scenario. -/
def nodesOmit : List PluginExecutionNode := [pOmit, pOk]

/-- First node of the duplicate-id scenario. -/
def dupN1 : PluginExecutionNode :=
  ⟨{ id := "x", category := PluginCategory.tool }, succeedingPlugin⟩

/-- Second node of the duplicate-id scenario: same id, different
category and lifecycle. -/
def dupN2 : PluginExecutionNode :=
  ⟨{ id := "x", category := PluginCategory.sdk }, {}⟩

/-- A plugin node depending on the declared plugin "Y". -/
def wX : PluginExecutionNode :=
  ⟨{ id := "X", category := PluginCategory.tool },
    { dependsOn := some ["Y"] }⟩

/-- The dependency target of `wX`. -/
def wY : PluginExecutionNode :=
  ⟨{ id := "Y", category := PluginCategory.tool }, {}⟩

/-- A well-formed two-node plugin list with one dependency edge. -/
def nodesW : List PluginExecutionNode := [wX, wY]

end Genesis

namespace Genesis

/-! ## Association list lemmas -/

theorem findA_eq_none {α : Type} :
    ∀ {l : List (String × α)} {i : String},
      findA l i = none ↔ i ∉ l.map Prod.fst := by
  intro l
  induction l with
  | nil => simp [findA]
  | cons p rest ih =>
    intro i
    rcases p with ⟨k, v⟩
    by_cases hk : k = i
    · subst hk
      simp [findA]
    · simp [findA, hk, ih, Ne.symm hk]

theorem findA_isSome_iff {α : Type} {l : List (String × α)} {i : String} :
    (findA l i).isSome = true ↔ i ∈ l.map Prod.fst := by
  constructor
  · intro h
    by_contra hmem
    rw [findA_eq_none.mpr hmem] at h
    simp at h
  · intro h
    rw [Option.isSome_iff_ne_none]
    intro hn
    exact findA_eq_none.mp hn h

theorem findA_append {α : Type} :
    ∀ (l1 l2 : List (String × α)) (i : String),
      findA (l1 ++ l2) i =
        match findA l1 i with
        | some v => some v
        | none => findA l2 i := by
  intro l1
  induction l1 with
  | nil => simp [findA]
  | cons p rest ih =>
    intro l2 i
    rcases p with ⟨k, v⟩
    by_cases hk : k = i <;> simp [findA, hk, ih]

theorem findA_mem {α : Type} :
    ∀ {l : List (String × α)} {i : String} {v : α},
      findA l i = some v → (i, v) ∈ l := by
  intro l
  induction l with
  | nil => simp [findA]
  | cons p rest ih =>
    intro i v h
    rcases p with ⟨k, w⟩
    by_cases hk : k = i
    · subst hk
      simp [findA] at h
      simp [h]
    · simp [findA, hk] at h
      exact List.mem_cons_of_mem _ (ih h)

theorem findA_setAssoc_self {α : Type} :
    ∀ (l : List (String × α)) (i : String) (v : α),
      findA (setAssoc l i v) i = some v := by
  intro l
  induction l with
  | nil => intro i v; simp [setAssoc, findA]
  | cons p rest ih =>
    intro i v
    rcases p with ⟨k, w⟩
    by_cases hk : k = i <;> simp [setAssoc, findA, hk, ih]

theorem findA_setAssoc_ne {α : Type} :
    ∀ (l : List (String × α)) {i j : String} (v : α), j ≠ i →
      findA (setAssoc l i v) j = findA l j := by
  intro l
  induction l with
  | nil => intro i j v h; simp [setAssoc, findA, Ne.symm h]
  | cons p rest ih =>
    intro i j v h
    rcases p with ⟨k, w⟩
    by_cases hk : k = i
    · subst hk
      simp [setAssoc, findA, Ne.symm h]
    · by_cases hj : k = j
      · subst hj
        simp [setAssoc, findA, hk]
      · simp [setAssoc, findA, hk, hj, ih _ h]

/-! ## List position lemmas -/

theorem mem_split_first {x : String} :
    ∀ {l : List String}, x ∈ l → ∃ l1 l2, l = l1 ++ x :: l2 ∧ x ∉ l1 := by
  intro l
  induction l with
  | nil => simp
  | cons y ys ih =>
    intro hx
    by_cases hy : y = x
    · subst hy
      exact ⟨[], ys, rfl, by simp⟩
    · have hx' : x ∈ ys := by
        rcases List.mem_cons.mp hx with h | h
        · exact absurd h.symm hy
        · exact h
      rcases ih hx' with ⟨l1, l2, rfl, hnot⟩
      exact ⟨y :: l1, l2, rfl, by
        simp only [List.mem_cons]
        rintro (h | h)
        · exact hy h.symm
        · exact hnot h⟩

theorem posIn_lt_length {x : String} :
    ∀ {l : List String}, x ∈ l → posIn l x < l.length := by
  intro l
  induction l with
  | nil => simp
  | cons y ys ih =>
    intro hx
    by_cases hy : y = x
    · simp [posIn, hy]
    · have hx' : x ∈ ys := by
        rcases List.mem_cons.mp hx with h | h
        · exact absurd h.symm hy
        · exact h
      simp only [posIn, hy, if_false, List.length_cons]
      exact Nat.succ_lt_succ (ih hx')

theorem posIn_append_of_mem {x : String} :
    ∀ {l1 : List String} (l2 : List String), x ∈ l1 →
      posIn (l1 ++ l2) x = posIn l1 x := by
  intro l1
  induction l1 with
  | nil => simp
  | cons y ys ih =>
    intro l2 hx
    by_cases hy : y = x
    · simp [posIn, hy]
    · have hx' : x ∈ ys := by
        rcases List.mem_cons.mp hx with h | h
        · exact absurd h.symm hy
        · exact h
      simp [posIn, hy, ih l2 hx']

theorem posIn_append_cons {x : String} :
    ∀ {l1 : List String} (l2 : List String), x ∉ l1 →
      posIn (l1 ++ x :: l2) x = l1.length := by
  intro l1
  induction l1 with
  | nil => simp [posIn]
  | cons y ys ih =>
    intro l2 hx
    have hy : y ≠ x := by
      intro h
      exact hx (by simp [h])
    have hx' : x ∉ ys := fun h => hx (List.mem_cons_of_mem _ h)
    simp [posIn, hy, ih l2 hx']

theorem snoc_split {l r res : List String} {x i : String}
    (h : l ++ x :: r = res ++ [i]) :
    (∃ r0, r = r0 ++ [i] ∧ res = l ++ x :: r0) ∨
      (l = res ∧ x = i ∧ r = []) := by
  rcases List.append_eq_append_iff.mp h with ⟨a, ha1, ha2⟩ | ⟨c, hc1, hc2⟩
  · cases a with
    | nil =>
      right
      simp at ha2
      simp [ha1, ha2]
    | cons z zs =>
      left
      have hz : x = z ∧ r = zs ++ [i] := by
        have := ha2
        simp only [List.cons_append] at this
        exact ⟨(List.cons.injEq _ _ _ _ ▸ this).1, (List.cons.injEq _ _ _ _ ▸ this).2⟩
      exact ⟨zs, hz.2, by simp [ha1, hz.1]⟩
  · cases c with
    | nil =>
      right
      simp at hc1 hc2
      exact ⟨hc1, hc2.1.symm, hc2.2⟩
    | cons z zs =>
      exfalso
      have hlen := congrArg List.length hc2
      simp at hlen

/-! ## `GoodRes` lemmas -/

theorem goodRes_nil (g : String → Option (List String)) : GoodRes g [] := by
  intro l x r h
  exact absurd h (by simp)

theorem goodRes_snoc {g : String → Option (List String)} {res : List String}
    {i : String} (h : GoodRes g res)
    (hd : ∀ d, d ∈ gdeps g i → (g d).isSome = true → d ∈ res) :
    GoodRes g (res ++ [i]) := by
  intro l x r hsplit d hdx hds
  rcases snoc_split hsplit.symm with ⟨r0, hr, hres⟩ | ⟨hl, hx, hr⟩
  · exact h l x r0 hres d hdx hds
  · subst hl
    subst hx
    exact hd d hdx hds

end Genesis

namespace Genesis

/-! ## The DFS postcondition (successful runs) -/

theorem foldSpec_of_visit {g : String → Option (List String)} {strict : Bool}
    {fuel : Nat}
    (H : ∀ i st st', SortInv st → visit g strict fuel i st = Except.ok st' →
      VisitSpec g strict i st st') :
    ∀ ds st st', SortInv st →
      visitFold (visit g strict fuel) ds st = Except.ok st' →
      FoldSpec g strict ds st st' := by
  intro ds
  induction ds with
  | nil =>
    intro st st' hInv h
    simp only [visitFold] at h
    cases h
    exact ⟨rfl, ⟨[], by simp, by simp⟩, hInv, by simp, fun hg => hg,
      fun _ hc => hc⟩
  | cons d ds ih =>
    intro st st' hInv h
    cases hv : visit g strict fuel d st with
    | error e =>
      simp only [visitFold, hv] at h
      exact Except.noConfusion h
    | ok st1 =>
      simp only [visitFold, hv] at h
      obtain ⟨ht1, ⟨e1, hr1, he1⟩, hInv1, hd1, hg1, hc1⟩ := H d st st1 hInv hv
      obtain ⟨ht2, ⟨e2, hr2, he2⟩, hInv2, hd2, hg2, hc2⟩ := ih st1 st' hInv1 h
      refine ⟨ht2.trans ht1,
        ⟨e1 ++ e2, by rw [hr2, hr1, List.append_assoc], ?_⟩, hInv2, ?_,
        fun hg => hg2 (hg1 hg), fun hstr hc => hc2 hstr (hc1 hstr hc)⟩
      · intro x hx
        rcases List.mem_append.mp hx with h1 | h2
        · exact he1 x h1
        · have hx2 := he2 x h2
          rwa [ht1] at hx2
      · intro dd hdd
        rcases List.mem_cons.mp hdd with rfl | hmem
        · rcases hd1 with hin | hnone
          · left
            rw [hr2]
            exact List.mem_append.mpr (Or.inl hin)
          · right
            exact hnone
        · exact hd2 dd hmem

theorem visit_ok {g : String → Option (List String)} {strict : Bool} :
    ∀ fuel i st st', SortInv st → visit g strict fuel i st = Except.ok st' →
      VisitSpec g strict i st st' := by
  intro fuel
  induction fuel with
  | zero =>
    intro i st st' _ h
    simp [visit] at h
  | succ fuel IH =>
    intro i st st' hInv h
    by_cases hres : i ∈ st.result
    · simp only [visit, hres, if_pos] at h
      cases h
      exact ⟨rfl, ⟨[], by simp, by simp⟩, hInv, Or.inl hres, fun hg => hg,
        fun _ hc => hc⟩
    · by_cases htemp : i ∈ st.temp
      · simp [visit, hres, htemp] at h
      · cases hg : g i with
        | none =>
          cases strict with
          | false =>
            simp only [visit, hres, htemp, hg, if_neg, if_false] at h
            cases h
            exact ⟨rfl, ⟨[], by simp, by simp⟩, hInv, Or.inr ⟨hg, rfl⟩,
              fun hgr => hgr, fun hstr _ => Bool.noConfusion hstr⟩
          | true => simp [visit, hres, htemp, hg] at h
        | some deps =>
          cases hf : visitFold (visit g strict fuel) deps
              ⟨st.temp ++ [i], st.result⟩ with
          | error e => simp [visit, hres, htemp, hg, hf] at h
          | ok st2 =>
            simp only [visit, hres, htemp, hg, hf, if_neg, if_false] at h
            cases h
            have hInvMid : SortInv ⟨st.temp ++ [i], st.result⟩ := by
              refine ⟨?_, hInv.2.1, ?_⟩
              · simp [List.nodup_append, hInv.1, htemp]
              · intro x hx
                rcases List.mem_append.mp hx with hx1 | hx2
                · exact hInv.2.2 x hx1
                · simp at hx2
                  subst hx2
                  exact hres
            obtain ⟨ht2, ⟨ext, hr2, hext⟩, hInv2, hdeps, hgood2, hclosed2⟩ :=
              foldSpec_of_visit IH deps _ st2 hInvMid hf
            have hterase : st2.temp.erase i = st.temp := by
              rw [ht2]
              rw [List.erase_append_right _ htemp]
              simp
            have hiNotRes2 : i ∉ st2.result := by
              have : i ∈ st2.temp := by
                rw [ht2]
                simp
              exact hInv2.2.2 i this
            refine ⟨by simpa using hterase, ⟨ext ++ [i], ?_, ?_⟩, ?_, ?_, ?_, ?_⟩
            · simp only
              rw [hr2, List.append_assoc]
            · intro x hx
              rcases List.mem_append.mp hx with hx1 | hx2
              · have hp := hext x hx1
                refine ⟨hp.1, ?_⟩
                intro hmem
                exact hp.2 (List.mem_append.mpr (Or.inl hmem))
              · simp at hx2
                subst hx2
                exact ⟨by simp [hg], htemp⟩
            · refine ⟨by simpa using (hterase ▸ hInv.1), ?_, ?_⟩
              · simp only
                rw [List.nodup_append]
                exact ⟨hInv2.2.1, by simp, by simp [hiNotRes2]⟩
              · intro x hx
                simp only at hx ⊢
                rw [hterase] at hx
                have hxt2 : x ∈ st2.temp := by
                  rw [ht2]
                  exact List.mem_append.mpr (Or.inl hx)
                have hx2 := hInv2.2.2 x hxt2
                have hxi : x ≠ i := fun hh => htemp (hh ▸ hx)
                simp [hx2, hxi]
            · left
              simp
            · intro hgr
              have hg2 := hgood2 hgr
              simp only
              refine goodRes_snoc hg2 ?_
              intro d hd hds
              have hd' : d ∈ deps := by
                simpa [gdeps, hg] using hd
              rcases hdeps d hd' with hin | hnone
              · exact hin
              · rw [hnone.1] at hds
                simp at hds
            · intro hstr hc
              have hc2 := hclosed2 hstr hc
              intro x hx d hd
              simp only at hx ⊢
              rcases List.mem_append.mp hx with hx1 | hx2
              · exact List.mem_append.mpr (Or.inl (hc2 x hx1 d hd))
              · simp at hx2
                subst hx2
                have hd' : d ∈ deps := by
                  simpa [gdeps, hg] using hd
                rcases hdeps d hd' with hin | hnone
                · exact List.mem_append.mpr (Or.inl hin)
                · rw [hstr] at hnone
                  exact Bool.noConfusion hnone.2

end Genesis

namespace Genesis

/-! ## The DFS error analysis -/

theorem sortInv_push {st : SortSt} {i : String} (hInv : SortInv st)
    (hres : i ∉ st.result) (htemp : i ∉ st.temp) :
    SortInv ⟨st.temp ++ [i], st.result⟩ := by
  refine ⟨?_, hInv.2.1, ?_⟩
  · simp [List.nodup_append, hInv.1, htemp]
  · intro x hx
    rcases List.mem_append.mp hx with hx1 | hx2
    · exact hInv.2.2 x hx1
    · simp at hx2
      subst hx2
      exact hres

theorem getLastSplit {l : List String} {u : String} :
    l.getLast? = some u → ∃ l', l = l' ++ [u] := by
  induction l with
  | nil => simp
  | cons y ys ih =>
    intro h
    cases ys with
    | nil =>
      simp at h
      exact ⟨[], by simp [h]⟩
    | cons z zs =>
      rw [List.getLast?_cons_cons] at h
      rcases ih h with ⟨l', hl⟩
      exact ⟨y :: l', by simp [hl]⟩

theorem concatInj {l1 l2 : List String} {a b : String}
    (h : l1 ++ [a] = l2 ++ [b]) : l1 = l2 ∧ a = b := by
  have h1 : (l1 ++ [a]).getLast? = some a := by simp
  have h2 : (l2 ++ [b]).getLast? = some b := by simp
  rw [h] at h1
  rw [h2] at h1
  have hab : a = b := by simpa using h1.symm
  subst hab
  have hlen : l1.length = l2.length := by
    have hc := congrArg List.length h
    simp at hc
    exact hc
  exact ⟨List.append_inj_left h hlen, rfl⟩

/-- The in-progress stack is a dependency chain. -/
def TempChain (g : String → Option (List String)) (l : List String) : Prop :=
  List.Chain' (EdgeB g) l

/-- The id about to be visited is a dependency of the top of the
in-progress stack (vacuous for an empty stack). -/
def LinkedL (g : String → Option (List String)) (temp : List String)
    (i : String) : Prop :=
  ∀ l' u, temp = l' ++ [u] → EdgeB g u i

theorem chainPath {g : String → Option (List String)} {b : String} :
    ∀ (p : List String) (a : String), List.Chain' (EdgeB g) (a :: p) →
      (∀ l' u, a :: p = l' ++ [u] → EdgeB g u b) → PathTo g a p b := by
  intro p
  induction p with
  | nil =>
    intro a _ hlast
    exact hlast [] a rfl
  | cons c cs ih =>
    intro a hchain hlast
    have hedge : EdgeB g a c := (List.chain'_cons.mp hchain).1
    refine ⟨hedge, ih c (List.chain'_cons.mp hchain).2 ?_⟩
    intro l' u hsplit
    exact hlast (a :: l') u (by simp [hsplit])

theorem foldCyclic_of_visit {g : String → Option (List String)} {strict : Bool}
    {fuel : Nat}
    (H : ∀ i st x, SortInv st → TempChain g st.temp → LinkedL g st.temp i →
      visit g strict fuel i st = Except.error (SortErr.cyclic x) →
      ∃ p, PathTo g x p x)
    (Hok : ∀ i st st', SortInv st → visit g strict fuel i st = Except.ok st' →
      VisitSpec g strict i st st') :
    ∀ ds st x, SortInv st → TempChain g st.temp →
      (∀ d, d ∈ ds → LinkedL g st.temp d) →
      visitFold (visit g strict fuel) ds st = Except.error (SortErr.cyclic x) →
      ∃ p, PathTo g x p x := by
  intro ds
  induction ds with
  | nil =>
    intro st x _ _ _ h
    simp [visitFold] at h
  | cons d ds ihds =>
    intro st x hInv hchain hlink h
    cases hv : visit g strict fuel d st with
    | error e =>
      simp only [visitFold, hv] at h
      cases h
      exact H d st x hInv hchain (hlink d (by simp)) hv
    | ok st1 =>
      simp only [visitFold, hv] at h
      obtain ⟨ht1, _, hInv1, _, _, _⟩ := Hok d st st1 hInv hv
      refine ihds st1 x hInv1 ?_ ?_ h
      · rw [ht1]
        exact hchain
      · intro dd hdd
        rw [ht1]
        exact hlink dd (List.mem_cons_of_mem _ hdd)

theorem visit_cyclic_cycle {g : String → Option (List String)} {strict : Bool} :
    ∀ fuel i st x, SortInv st → TempChain g st.temp → LinkedL g st.temp i →
      visit g strict fuel i st = Except.error (SortErr.cyclic x) →
      ∃ p, PathTo g x p x := by
  intro fuel
  induction fuel with
  | zero =>
    intro i st x _ _ _ h
    simp [visit] at h
  | succ fuel IH =>
    intro i st x hInv hchain hlink h
    by_cases hres : i ∈ st.result
    · simp [visit, hres] at h
    · by_cases htemp : i ∈ st.temp
      · simp only [visit, hres, htemp, if_neg, if_pos, if_false] at h
        cases h
        rcases mem_split_first htemp with ⟨l, r, hsplit, _⟩
        have hchainr : List.Chain' (EdgeB g) (i :: r) := by
          rw [TempChain, hsplit] at hchain
          exact (List.chain'_append.mp hchain).2.1
        refine ⟨r, chainPath r i hchainr ?_⟩
        intro l' u hsp
        apply hlink (l ++ l') u
        rw [hsplit, hsp]
        simp
      · cases hg : g i with
        | none =>
          cases strict <;> simp [visit, hres, htemp, hg] at h
        | some deps =>
          cases hf : visitFold (visit g strict fuel) deps
              ⟨st.temp ++ [i], st.result⟩ with
          | ok st2 => simp [visit, hres, htemp, hg, hf] at h
          | error e =>
            simp only [visit, hres, htemp, hg, hf, if_neg, if_false] at h
            cases h
            have hInvMid := sortInv_push hInv hres htemp
            have hchainMid : TempChain g (st.temp ++ [i]) := by
              rw [TempChain, List.chain'_append]
              refine ⟨hchain, by simp, ?_⟩
              intro a ha b hb
              simp at hb
              subst hb
              rcases getLastSplit ha with ⟨l', hl⟩
              exact hlink l' a hl
            refine foldCyclic_of_visit IH (visit_ok fuel) deps
              ⟨st.temp ++ [i], st.result⟩ x hInvMid hchainMid ?_ hf
            intro d hd l' u hsp
            obtain ⟨hl, hu⟩ := concatInj hsp.symm
            subst hu
            exact ⟨by simp [hg], by simp [gdeps, hg, hd]⟩

end Genesis

namespace Genesis

theorem foldFuel_of_visit {g : String → Option (List String)} {strict : Bool}
    {fuel : Nat} {dom : List String}
    (H : ∀ i st, SortInv st → (∀ x, x ∈ st.temp → x ∈ dom) →
      dom.length < fuel + st.temp.length →
      visit g strict fuel i st ≠ Except.error SortErr.fuel)
    (Hok : ∀ i st st', SortInv st → visit g strict fuel i st = Except.ok st' →
      VisitSpec g strict i st st') :
    ∀ ds st, SortInv st → (∀ x, x ∈ st.temp → x ∈ dom) →
      dom.length < fuel + st.temp.length →
      visitFold (visit g strict fuel) ds st ≠ Except.error SortErr.fuel := by
  intro ds
  induction ds with
  | nil =>
    intro st _ _ _ h
    simp [visitFold] at h
  | cons d ds ihds =>
    intro st hInv hsub hlt h
    cases hv : visit g strict fuel d st with
    | error e =>
      simp only [visitFold, hv] at h
      cases h
      exact H d st hInv hsub hlt hv
    | ok st1 =>
      simp only [visitFold, hv] at h
      obtain ⟨ht1, _, hInv1, _, _, _⟩ := Hok d st st1 hInv hv
      refine ihds st1 hInv1 ?_ ?_ h
      · rw [ht1]
        exact hsub
      · rw [ht1]
        exact hlt

theorem visit_ne_fuel {g : String → Option (List String)} {strict : Bool}
    {dom : List String} (hdom : ∀ i, (g i).isSome = true → i ∈ dom) :
    ∀ fuel i st, SortInv st → (∀ x, x ∈ st.temp → x ∈ dom) →
      dom.length < fuel + st.temp.length →
      visit g strict fuel i st ≠ Except.error SortErr.fuel := by
  intro fuel
  induction fuel with
  | zero =>
    intro i st hInv hsub hlt
    exfalso
    have hle := (hInv.1.subperm (fun x hx => hsub x hx)).length_le
    omega
  | succ fuel IH =>
    intro i st hInv hsub hlt h
    by_cases hres : i ∈ st.result
    · simp [visit, hres] at h
    · by_cases htemp : i ∈ st.temp
      · simp [visit, hres, htemp] at h
      · cases hg : g i with
        | none => cases strict <;> simp [visit, hres, htemp, hg] at h
        | some deps =>
          cases hf : visitFold (visit g strict fuel) deps
              ⟨st.temp ++ [i], st.result⟩ with
          | ok st2 => simp [visit, hres, htemp, hg, hf] at h
          | error e =>
            simp only [visit, hres, htemp, hg, hf, if_neg, if_false] at h
            cases h
            have hInvMid := sortInv_push hInv hres htemp
            refine foldFuel_of_visit IH (visit_ok fuel) deps
              ⟨st.temp ++ [i], st.result⟩ hInvMid ?_ ?_ hf
            · intro x hx
              rcases List.mem_append.mp hx with hx1 | hx2
              · exact hsub x hx1
              · simp at hx2
                subst hx2
                exact hdom x (by simp [hg])
            · simp only [List.length_append, List.length_cons, List.length_nil]
              omega

theorem foldNoMissing_of_visit {g : String → Option (List String)}
    {fuel : Nat}
    (H : ∀ i st x, visit g false fuel i st ≠ Except.error (SortErr.missing x)) :
    ∀ ds st x,
      visitFold (visit g false fuel) ds st ≠ Except.error (SortErr.missing x) := by
  intro ds
  induction ds with
  | nil =>
    intro st x h
    simp [visitFold] at h
  | cons d ds ihds =>
    intro st x h
    cases hv : visit g false fuel d st with
    | error e =>
      simp only [visitFold, hv] at h
      cases h
      exact H d st x hv
    | ok st1 =>
      simp only [visitFold, hv] at h
      exact ihds st1 x h

theorem visit_no_missing {g : String → Option (List String)} :
    ∀ fuel i st x,
      visit g false fuel i st ≠ Except.error (SortErr.missing x) := by
  intro fuel
  induction fuel with
  | zero =>
    intro i st x h
    simp [visit] at h
  | succ fuel IH =>
    intro i st x h
    by_cases hres : i ∈ st.result
    · simp [visit, hres] at h
    · by_cases htemp : i ∈ st.temp
      · simp [visit, hres, htemp] at h
      · cases hg : g i with
        | none => simp [visit, hres, htemp, hg] at h
        | some deps =>
          cases hf : visitFold (visit g false fuel) deps
              ⟨st.temp ++ [i], st.result⟩ with
          | ok st2 => simp [visit, hres, htemp, hg, hf] at h
          | error e =>
            simp only [visit, hres, htemp, hg, hf, if_neg, if_false] at h
            cases h
            exact foldNoMissing_of_visit IH deps _ x hf

theorem foldMissing_of_visit {g : String → Option (List String)} {strict : Bool}
    {fuel : Nat}
    (H : ∀ i st x, SortInv st →
      visit g strict fuel i st = Except.error (SortErr.missing x) →
      g x = none ∧ (x = i ∨ ∃ u, (g u).isSome = true ∧ x ∈ gdeps g u))
    (Hok : ∀ i st st', SortInv st → visit g strict fuel i st = Except.ok st' →
      VisitSpec g strict i st st') :
    ∀ ds st x, SortInv st →
      visitFold (visit g strict fuel) ds st = Except.error (SortErr.missing x) →
      g x = none ∧ (x ∈ ds ∨ ∃ u, (g u).isSome = true ∧ x ∈ gdeps g u) := by
  intro ds
  induction ds with
  | nil =>
    intro st x _ h
    simp [visitFold] at h
  | cons d ds ihds =>
    intro st x hInv h
    cases hv : visit g strict fuel d st with
    | error e =>
      simp only [visitFold, hv] at h
      cases h
      obtain ⟨hn, hor⟩ := H d st x hInv hv
      refine ⟨hn, ?_⟩
      rcases hor with rfl | hu
      · left
        simp
      · right
        exact hu
    | ok st1 =>
      simp only [visitFold, hv] at h
      obtain ⟨_, _, hInv1, _, _, _⟩ := Hok d st st1 hInv hv
      obtain ⟨hn, hor⟩ := ihds st1 x hInv1 h
      refine ⟨hn, ?_⟩
      rcases hor with hd | hu
      · left
        exact List.mem_cons_of_mem _ hd
      · right
        exact hu

theorem visit_missing_char {g : String → Option (List String)} {strict : Bool} :
    ∀ fuel i st x, SortInv st →
      visit g strict fuel i st = Except.error (SortErr.missing x) →
      g x = none ∧ (x = i ∨ ∃ u, (g u).isSome = true ∧ x ∈ gdeps g u) := by
  intro fuel
  induction fuel with
  | zero =>
    intro i st x _ h
    simp [visit] at h
  | succ fuel IH =>
    intro i st x hInv h
    by_cases hres : i ∈ st.result
    · simp [visit, hres] at h
    · by_cases htemp : i ∈ st.temp
      · simp [visit, hres, htemp] at h
      · cases hg : g i with
        | none =>
          cases strict with
          | false => simp [visit, hres, htemp, hg] at h
          | true =>
            simp only [visit, hres, htemp, hg, if_neg, if_true, if_false] at h
            cases h
            exact ⟨hg, Or.inl rfl⟩
        | some deps =>
          cases hf : visitFold (visit g strict fuel) deps
              ⟨st.temp ++ [i], st.result⟩ with
          | ok st2 => simp [visit, hres, htemp, hg, hf] at h
          | error e =>
            simp only [visit, hres, htemp, hg, hf, if_neg, if_false] at h
            cases h
            have hInvMid := sortInv_push hInv hres htemp
            obtain ⟨hn, hor⟩ :=
              foldMissing_of_visit IH (visit_ok fuel) deps _ x hInvMid hf
            refine ⟨hn, Or.inr ?_⟩
            rcases hor with hd | hu
            · exact ⟨i, by simp [hg], by simp [gdeps, hg, hd]⟩
            · exact hu

end Genesis

namespace Genesis

/-! ## A dependency-respecting order excludes cycles -/

theorem pathTo_src {g : String → Option (List String)} :
    ∀ (p : List String) (a b : String), PathTo g a p b →
      (g a).isSome = true := by
  intro p
  cases p with
  | nil => intro a b h; exact h.1
  | cons c cs => intro a b h; exact h.1.1

theorem goodRes_edge_lt {g : String → Option (List String)}
    {res : List String} (hgood : GoodRes g res)
    {u d : String} (hu : u ∈ res) (hd : d ∈ gdeps g u)
    (hds : (g d).isSome = true) : posIn res d < posIn res u := by
  rcases mem_split_first hu with ⟨l, r, hres, hul⟩
  subst hres
  have hdl : d ∈ l := hgood l u r rfl d hd hds
  have h1 : posIn (l ++ u :: r) u = l.length := posIn_append_cons _ hul
  have h2 : posIn (l ++ u :: r) d = posIn l d := posIn_append_of_mem _ hdl
  rw [h1, h2]
  exact posIn_lt_length hdl

theorem goodRes_path_lt {g : String → Option (List String)}
    {res : List String} (hgood : GoodRes g res)
    (htot : ∀ y, (g y).isSome = true → y ∈ res) :
    ∀ (p : List String) (a b : String), PathTo g a p b →
      (g b).isSome = true → posIn res b < posIn res a := by
  intro p
  induction p with
  | nil =>
    intro a b hp hb
    exact goodRes_edge_lt hgood (htot a hp.1) hp.2 hb
  | cons c cs ih =>
    intro a b hp hb
    obtain ⟨hac, hrest⟩ := hp
    have hc : (g c).isSome = true := pathTo_src cs c b hrest
    have h1 := ih c b hrest hb
    have h2 := goodRes_edge_lt hgood (htot a hac.1) hac.2 hc
    omega

theorem noCycle_of_goodRes {g : String → Option (List String)}
    {res : List String} (hgood : GoodRes g res)
    (htot : ∀ y, (g y).isSome = true → y ∈ res) : ¬ HasCycle g := by
  rintro ⟨x, p, hp⟩
  have hx := pathTo_src p x x hp
  have := goodRes_path_lt hgood htot p x x hp hx
  omega

/-! ## Top-level DFS runs (empty initial state) -/

theorem sortInv_empty : SortInv ⟨[], []⟩ :=
  ⟨List.nodup_nil, List.nodup_nil, by simp⟩

theorem topFold_ok_spec {g : String → Option (List String)} {strict : Bool}
    {fuel : Nat} {ids : List String} {st' : SortSt}
    (h : visitFold (visit g strict fuel) ids ⟨[], []⟩ = Except.ok st') :
    st'.result.Nodup ∧
    (∀ x, x ∈ st'.result → (g x).isSome = true) ∧
    (∀ i, i ∈ ids → i ∈ st'.result ∨ (g i = none ∧ strict = false)) ∧
    GoodRes g st'.result ∧
    (strict = true → ClosedRes g st'.result) := by
  obtain ⟨ht, ⟨ext, hr, hext⟩, hInv, hids, hgood, hclosed⟩ :=
    foldSpec_of_visit (visit_ok fuel) ids _ st' sortInv_empty h
  refine ⟨hInv.2.1, ?_, hids, hgood (goodRes_nil g),
    fun hstr => hclosed hstr (by intro x hx; simp at hx)⟩
  intro x hx
  simp only at hr
  rw [hr] at hx
  simp at hx
  exact (hext x hx).1

theorem topFold_cyclic {g : String → Option (List String)} {strict : Bool}
    {fuel : Nat} {ids : List String} {x : String}
    (h : visitFold (visit g strict fuel) ids ⟨[], []⟩ =
      Except.error (SortErr.cyclic x)) :
    ∃ p, PathTo g x p x := by
  refine foldCyclic_of_visit (fun i st y => visit_cyclic_cycle fuel i st y)
    (visit_ok fuel) ids ⟨[], []⟩ x sortInv_empty ?_ ?_ h
  · exact List.chain'_nil
  · intro d _ l' u hsp
    exact absurd hsp.symm (by simp)

theorem topFold_ne_fuel {g : String → Option (List String)} {strict : Bool}
    {fuel : Nat} {dom ids : List String}
    (hdom : ∀ i, (g i).isSome = true → i ∈ dom)
    (hlt : dom.length < fuel) :
    visitFold (visit g strict fuel) ids ⟨[], []⟩ ≠
      Except.error SortErr.fuel := by
  refine foldFuel_of_visit
    (fun i st hInv hsub hl => visit_ne_fuel hdom fuel i st hInv hsub hl)
    (visit_ok fuel) ids ⟨[], []⟩ sortInv_empty (by simp) (by simpa using hlt)

theorem topFold_missing {g : String → Option (List String)} {strict : Bool}
    {fuel : Nat} {ids : List String} {x : String}
    (h : visitFold (visit g strict fuel) ids ⟨[], []⟩ =
      Except.error (SortErr.missing x)) :
    g x = none ∧ (x ∈ ids ∨ ∃ u, (g u).isSome = true ∧ x ∈ gdeps g u) :=
  foldMissing_of_visit (fun i st y => visit_missing_char fuel i st y)
    (visit_ok fuel) ids _ x sortInv_empty h

/-! ## `topologicalSort` specification -/

theorem insertDesc_mem {p : String → Int} {x y : String} :
    ∀ {l : List String}, x ∈ insertDesc p y l ↔ x = y ∨ x ∈ l := by
  intro l
  induction l with
  | nil => simp [insertDesc]
  | cons z zs ih =>
    by_cases hc : p y < p z
    · simp only [insertDesc, if_pos hc, List.mem_cons, ih]
      tauto
    · simp only [insertDesc, if_neg hc, List.mem_cons]

theorem sortDescBy_mem {p : String → Int} {x : String} :
    ∀ {l : List String}, x ∈ sortDescBy p l ↔ x ∈ l := by
  intro l
  induction l with
  | nil => simp [sortDescBy]
  | cons z zs ih =>
    simp only [sortDescBy, List.foldr_cons, List.mem_cons]
    rw [show List.foldr (insertDesc p) [] zs = sortDescBy p zs from rfl]
    rw [insertDesc_mem, ih]

theorem graph_isSome {reg : TaskRegistry} {i : String} :
    (reg.graph i).isSome = true ↔ (findA reg.tasks i).isSome = true := by
  simp [TaskRegistry.graph]

theorem sortedIds_mem {reg : TaskRegistry} {i : String} :
    i ∈ reg.sortedIds ↔ i ∈ reg.tasks.map Prod.fst := by
  rw [TaskRegistry.sortedIds, sortDescBy_mem]

theorem topologicalSort_ok_spec {reg : TaskRegistry} {order : List String}
    (h : reg.topologicalSort = Except.ok order) :
    order.Nodup ∧
    (∀ i, i ∈ order ↔ (reg.graph i).isSome = true) ∧
    GoodRes reg.graph order ∧ ¬ HasCycle reg.graph := by
  rw [TaskRegistry.topologicalSort] at h
  cases hf : visitFold (visit reg.graph false (reg.tasks.length + 1))
      reg.sortedIds ⟨[], []⟩ with
  | error e => rw [hf] at h; exact Except.noConfusion h
  | ok st' =>
    rw [hf] at h
    cases h
    obtain ⟨hnd, hsome, hids, hgood, _⟩ := topFold_ok_spec hf
    have hmem : ∀ i, i ∈ st'.result ↔ (reg.graph i).isSome = true := by
      intro i
      constructor
      · exact hsome i
      · intro hs
        have hkeys : i ∈ reg.tasks.map Prod.fst :=
          findA_isSome_iff.mp (graph_isSome.mp hs)
        rcases hids i (sortedIds_mem.mpr hkeys) with hin | hnone
        · exact hin
        · rw [hnone.1] at hs
          simp at hs
    refine ⟨hnd, hmem, hgood, ?_⟩
    exact noCycle_of_goodRes hgood (fun y hy => (hmem y).mpr hy)

theorem topologicalSort_err_spec {reg : TaskRegistry} {e : SortErr}
    (h : reg.topologicalSort = Except.error e) :
    ∃ x, e = SortErr.cyclic x ∧ ∃ p, PathTo reg.graph x p x := by
  rw [TaskRegistry.topologicalSort] at h
  cases hf : visitFold (visit reg.graph false (reg.tasks.length + 1))
      reg.sortedIds ⟨[], []⟩ with
  | ok st' => rw [hf] at h; exact Except.noConfusion h
  | error e' =>
    rw [hf] at h
    cases h
    cases e with
    | cyclic x => exact ⟨x, rfl, topFold_cyclic hf⟩
    | missing x =>
      exact absurd hf (by
        intro hc
        exact foldNoMissing_of_visit
          (fun i st y => visit_no_missing _ i st y) _ _ x hc)
    | fuel =>
      exact absurd hf (topFold_ne_fuel
        (fun i hi => findA_isSome_iff.mp (graph_isSome.mp hi))
        (by simp))

theorem topologicalSort_total {reg : TaskRegistry}
    (h : ¬ HasCycle reg.graph) :
    ∃ order, reg.topologicalSort = Except.ok order := by
  cases hs : reg.topologicalSort with
  | ok o => exact ⟨o, rfl⟩
  | error e =>
    obtain ⟨x, rfl, p, hp⟩ := topologicalSort_err_spec hs
    exact absurd ⟨x, p, hp⟩ h

end Genesis

namespace Genesis

/-! ## The execution loop of `executeAll` -/

theorem execStep_tasks_ne {st : ExecSt} {i j : String} (h : j ≠ i) :
    findA (execStep st i).tasks j = findA st.tasks j := by
  rw [execStep]
  cases hfind : findA st.tasks i with
  | none => rfl
  | some ts =>
    by_cases hb : (taskDeps ts.task).any (depFailed st.tasks) = true
    · simp only [hb, if_pos]
      exact findA_setAssoc_ne _ _ h
    · simp only [hb, if_neg, if_false, Bool.not_eq_true]
      cases ts.task.run with
      | ret r => exact findA_setAssoc_ne _ _ h
      | throws msg => exact findA_setAssoc_ne _ _ h

theorem execStep_results_ne {st : ExecSt} {i j : String} (h : j ≠ i) :
    findA (execStep st i).results j = findA st.results j := by
  rw [execStep]
  cases hfind : findA st.tasks i with
  | none => rfl
  | some ts =>
    by_cases hb : (taskDeps ts.task).any (depFailed st.tasks) = true
    · simp only [hb, if_pos]
      exact findA_setAssoc_ne _ _ h
    · simp only [hb, if_neg, if_false, Bool.not_eq_true]
      cases ts.task.run with
      | ret r => exact findA_setAssoc_ne _ _ h
      | throws msg => exact findA_setAssoc_ne _ _ h

theorem execStep_taskField (st : ExecSt) (i j : String) :
    (findA (execStep st i).tasks j).map TaskState.task =
      (findA st.tasks j).map TaskState.task := by
  by_cases hji : j = i
  · subst hji
    rw [execStep]
    cases hfind : findA st.tasks j with
    | none => simp [hfind]
    | some ts =>
      by_cases hb : (taskDeps ts.task).any (depFailed st.tasks) = true
      · simp only [hb, if_pos]
        rw [findA_setAssoc_self]
        rfl
      · simp only [hb, if_neg, if_false, Bool.not_eq_true]
        cases ts.task.run with
        | ret r =>
          rw [findA_setAssoc_self]
          rfl
        | throws msg =>
          rw [findA_setAssoc_self]
          rfl
  · rw [execStep_tasks_ne hji]

theorem execStep_invoked (st : ExecSt) (i : String) :
    ∃ app, (execStep st i).invoked = st.invoked ++ app ∧
      (app = [] ∨ ∃ ts, findA st.tasks i = some ts ∧ app = [(i, ts.task.tag)]) := by
  rw [execStep]
  cases hfind : findA st.tasks i with
  | none => exact ⟨[], by simp, Or.inl rfl⟩
  | some ts =>
    by_cases hb : (taskDeps ts.task).any (depFailed st.tasks) = true
    · simp only [hb, if_pos]
      exact ⟨[], by simp, Or.inl rfl⟩
    · simp only [hb, if_neg, if_false, Bool.not_eq_true]
      cases ts.task.run with
      | ret r => exact ⟨[(i, ts.task.tag)], by simp, Or.inr ⟨ts, rfl, rfl⟩⟩
      | throws msg => exact ⟨[(i, ts.task.tag)], by simp, Or.inr ⟨ts, rfl, rfl⟩⟩

theorem foldExec_tasks_not_mem :
    ∀ (order : List String) (st : ExecSt) {j : String}, j ∉ order →
      findA (order.foldl execStep st).tasks j = findA st.tasks j := by
  intro order
  induction order with
  | nil => intro st j _; rfl
  | cons i rest ih =>
    intro st j hj
    have hji : j ≠ i := fun h => hj (by simp [h])
    have hjr : j ∉ rest := fun h => hj (List.mem_cons_of_mem _ h)
    rw [List.foldl_cons, ih _ hjr, execStep_tasks_ne hji]

theorem foldExec_results_not_mem :
    ∀ (order : List String) (st : ExecSt) {j : String}, j ∉ order →
      findA (order.foldl execStep st).results j = findA st.results j := by
  intro order
  induction order with
  | nil => intro st j _; rfl
  | cons i rest ih =>
    intro st j hj
    have hji : j ≠ i := fun h => hj (by simp [h])
    have hjr : j ∉ rest := fun h => hj (List.mem_cons_of_mem _ h)
    rw [List.foldl_cons, ih _ hjr, execStep_results_ne hji]

theorem foldExec_taskField :
    ∀ (order : List String) (st : ExecSt) (j : String),
      (findA (order.foldl execStep st).tasks j).map TaskState.task =
        (findA st.tasks j).map TaskState.task := by
  intro order
  induction order with
  | nil => intro st j; rfl
  | cons i rest ih =>
    intro st j
    rw [List.foldl_cons, ih _ j, execStep_taskField]

theorem foldExec_invoked :
    ∀ (order : List String) (st : ExecSt),
      ∃ ext, (order.foldl execStep st).invoked = st.invoked ++ ext ∧
        (∀ pr, pr ∈ ext → ∃ ts, findA st.tasks pr.1 = some ts ∧
          pr.2 = ts.task.tag) ∧
        List.Sublist (ext.map Prod.fst) order := by
  intro order
  induction order with
  | nil => intro st; exact ⟨[], by simp, by simp, by simp⟩
  | cons i rest ih =>
    intro st
    rw [List.foldl_cons]
    obtain ⟨ext, hext, hprov, hsub⟩ := ih (execStep st i)
    obtain ⟨app, happ, hcase⟩ := execStep_invoked st i
    refine ⟨app ++ ext, ?_, ?_, ?_⟩
    · rw [hext, happ, List.append_assoc]
    · intro pr hpr
      rcases List.mem_append.mp hpr with h1 | h2
      · rcases hcase with rfl | ⟨ts, hts, rfl⟩
        · simp at h1
        · simp at h1
          subst h1
          exact ⟨ts, hts, rfl⟩
      · obtain ⟨ts', hts', htag⟩ := hprov pr h2
        have hmap := execStep_taskField st i pr.1
        rw [hts'] at hmap
        cases hfind : findA st.tasks pr.1 with
        | none =>
          rw [hfind] at hmap
          simp at hmap
        | some ts0 =>
          rw [hfind] at hmap
          simp at hmap
          exact ⟨ts0, rfl, by rw [htag, hmap]⟩
    · rw [List.map_append]
      rcases hcase with rfl | ⟨ts, hts, rfl⟩
      · simpa using hsub.cons i
      · simpa using hsub.cons₂ i

end Genesis

namespace Genesis

theorem execStep_skip {st : ExecSt} {i : String} {ts : TaskState}
    (hfind : findA st.tasks i = some ts)
    (hany : (taskDeps ts.task).any (depFailed st.tasks) = true) :
    execStep st i =
      ⟨setAssoc st.tasks i (skippedState ts),
        setAssoc st.results i depFailedResult, st.invoked⟩ := by
  rw [execStep, hfind]
  simp [hany, skippedState]

theorem execStep_invoke {st : ExecSt} {i : String} {ts : TaskState}
    (hfind : findA st.tasks i = some ts)
    (hany : (taskDeps ts.task).any (depFailed st.tasks) = false) :
    execStep st i =
      ⟨setAssoc st.tasks i (invokedState ts),
        setAssoc st.results i (invokedResult ts),
        st.invoked ++ [(i, ts.task.tag)]⟩ := by
  rw [execStep, hfind]
  simp only [hany, Bool.false_eq_true, if_false]
  cases hrun : ts.task.run with
  | ret r => simp [invokedState, invokedResult, hrun]
  | throws msg => simp [invokedState, invokedResult, hrun]

theorem foldExec_tasks_isSome :
    ∀ (order : List String) (st : ExecSt) (j : String),
      (findA (order.foldl execStep st).tasks j).isSome =
        (findA st.tasks j).isSome := by
  intro order st j
  have h := foldExec_taskField order st j
  cases h1 : findA (order.foldl execStep st).tasks j with
  | none =>
    cases h2 : findA st.tasks j with
    | none => rfl
    | some b =>
      rw [h1, h2] at h
      simp at h
  | some a =>
    cases h2 : findA st.tasks j with
    | none =>
      rw [h1, h2] at h
      simp at h
    | some b => rfl

theorem depFailed_eq_true {tasks : List (String × TaskState)} {d : String} :
    depFailed tasks d = true ↔
      ∃ sd, findA tasks d = some sd ∧ sd.status = TaskStatus.failed := by
  rw [depFailed]
  cases hfd : findA tasks d with
  | none => simp
  | some sd => cases hstat : sd.status <;> simp [hstat]

theorem executeAll_dissect {reg : TaskRegistry}
    {res : List (String × TaskResult)}
    (h : reg.executeAll.outcome = Except.ok res) (hne : ¬ reg.tasks.isEmpty) :
    ∃ order, reg.topologicalSort = Except.ok order ∧
      reg.executeAll.finalTasks =
        (order.foldl execStep ⟨reg.tasks, [], []⟩).tasks ∧
      reg.executeAll.invoked =
        (order.foldl execStep ⟨reg.tasks, [], []⟩).invoked ∧
      res = (order.foldl execStep ⟨reg.tasks, [], []⟩).results := by
  cases hs : reg.topologicalSort with
  | error e =>
    rw [TaskRegistry.executeAll] at h
    simp [hne, hs] at h
  | ok order =>
    have hexec : reg.executeAll =
        ⟨Except.ok (order.foldl execStep ⟨reg.tasks, [], []⟩).results,
          (order.foldl execStep ⟨reg.tasks, [], []⟩).tasks,
          (order.foldl execStep ⟨reg.tasks, [], []⟩).invoked⟩ := by
      rw [TaskRegistry.executeAll]
      simp [hne, hs]
    rw [hexec] at h
    simp only at h
    cases h
    exact ⟨order, rfl, by rw [hexec], by rw [hexec], rfl⟩

theorem executeAll_processed {reg : TaskRegistry} {u : String} {tsu : TaskState}
    {res : List (String × TaskResult)}
    (houtcome : reg.executeAll.outcome = Except.ok res)
    (hu : findA reg.tasks u = some tsu) :
    (DepFailedFinal reg tsu ∧
      findA reg.executeAll.finalTasks u = some (skippedState tsu) ∧
      findA res u = some depFailedResult ∧
      ∀ t, (u, t) ∉ reg.executeAll.invoked) ∨
    (¬ DepFailedFinal reg tsu ∧
      findA reg.executeAll.finalTasks u = some (invokedState tsu) ∧
      findA res u = some (invokedResult tsu) ∧
      (u, tsu.task.tag) ∈ reg.executeAll.invoked) := by
  have hne : ¬ reg.tasks.isEmpty := by
    intro he
    cases hl : reg.tasks with
    | nil =>
      rw [hl] at hu
      simp [findA] at hu
    | cons a as =>
      rw [hl] at he
      simp at he
  obtain ⟨order, hs, hft, hinv, hres⟩ := executeAll_dissect houtcome hne
  obtain ⟨hnd, hmem, hgood, _⟩ := topologicalSort_ok_spec hs
  have husome : (reg.graph u).isSome = true := by
    simp [TaskRegistry.graph, hu]
  have humem : u ∈ order := (hmem u).mpr husome
  rcases mem_split_first humem with ⟨l, r, horder, hul⟩
  have hnd' := hnd
  rw [horder] at hnd'
  rcases List.nodup_append.mp hnd' with ⟨hndl, hndur, hdisj⟩
  have hur : u ∉ r := (List.nodup_cons.mp hndur).1
  have hfold : order.foldl execStep ⟨reg.tasks, [], []⟩ =
      r.foldl execStep (execStep (l.foldl execStep ⟨reg.tasks, [], []⟩) u) := by
    rw [horder, List.foldl_append, List.foldl_cons]
  have huL : findA (l.foldl execStep ⟨reg.tasks, [], []⟩).tasks u = some tsu := by
    rw [foldExec_tasks_not_mem l _ hul]
    exact hu
  have hdep_step_final : ∀ d, d ∈ taskDeps tsu.task →
      (findA reg.tasks d ≠ none →
        findA (l.foldl execStep ⟨reg.tasks, [], []⟩).tasks d =
          findA reg.executeAll.finalTasks d) := by
    intro d hd hdreg
    have hdsome : (reg.graph d).isSome = true := by
      cases hfr : findA reg.tasks d with
      | none => exact absurd hfr hdreg
      | some tsd => simp [TaskRegistry.graph, hfr]
    have hdl : d ∈ l := by
      apply hgood l u r horder d ?_ hdsome
      simp only [gdeps, TaskRegistry.graph, hu, Option.map_some', Option.getD_some]
      exact hd
    have hdur : d ∉ u :: r := fun hh => hdisj hdl hh
    rw [hft, hfold,
      foldExec_tasks_not_mem r _ (fun hh => hdur (List.mem_cons_of_mem _ hh)),
      execStep_tasks_ne (fun hh => hdur (by simp [hh]))]
  have hkeys : ∀ d, (findA reg.executeAll.finalTasks d).isSome =
      (findA reg.tasks d).isSome := by
    intro d
    rw [hft]
    exact foldExec_tasks_isSome order _ d
  have hkeysL : ∀ d, (findA (l.foldl execStep ⟨reg.tasks, [], []⟩).tasks d).isSome =
      (findA reg.tasks d).isSome := by
    intro d
    exact foldExec_tasks_isSome l _ d
  have hany_iff :
      ((taskDeps tsu.task).any
        (depFailed (l.foldl execStep ⟨reg.tasks, [], []⟩).tasks) = true) ↔
      DepFailedFinal reg tsu := by
    constructor
    · intro hany
      rcases List.any_eq_true.mp hany with ⟨d, hd, hdf⟩
      rcases depFailed_eq_true.mp hdf with ⟨sd, hfd, hstat⟩
      refine ⟨d, hd, ?_⟩
      have hdreg : findA reg.tasks d ≠ none := by
        intro hn
        have hk := hkeysL d
        rw [hfd, hn] at hk
        simp at hk
      rw [← hdep_step_final d hd hdreg, hfd]
      simp [hstat]
    · rintro ⟨d, hd, hfail⟩
      apply List.any_eq_true.mpr
      refine ⟨d, hd, ?_⟩
      have hdreg : findA reg.tasks d ≠ none := by
        intro hn
        have hk := hkeys d
        rw [hn] at hk
        cases hff : findA reg.executeAll.finalTasks d with
        | none =>
          rw [hff] at hfail
          simp at hfail
        | some sd =>
          rw [hff] at hk
          simp at hk
      apply depFailed_eq_true.mpr
      cases hff : findA reg.executeAll.finalTasks d with
      | none =>
        rw [hff] at hfail
        simp at hfail
      | some sd =>
        rw [hff] at hfail
        simp at hfail
        exact ⟨sd, by rw [hdep_step_final d hd hdreg, hff], hfail⟩
  by_cases hany : (taskDeps tsu.task).any
      (depFailed (l.foldl execStep ⟨reg.tasks, [], []⟩).tasks) = true
  · left
    have hstep := execStep_skip huL hany
    refine ⟨hany_iff.mp hany, ?_, ?_, ?_⟩
    · rw [hft, hfold, foldExec_tasks_not_mem r _ hur, hstep]
      exact findA_setAssoc_self _ _ _
    · rw [hres, hfold, foldExec_results_not_mem r _ hur, hstep]
      exact findA_setAssoc_self _ _ _
    · intro t ht
      rw [hinv, hfold] at ht
      obtain ⟨ext, hext, _, hsub⟩ := foldExec_invoked r (execStep (l.foldl execStep ⟨reg.tasks, [], []⟩) u)
      rw [hext, hstep] at ht
      simp only at ht
      obtain ⟨extL, hextL, _, hsubL⟩ := foldExec_invoked l (⟨reg.tasks, [], []⟩ : ExecSt)
      rw [hextL] at ht
      simp only [List.nil_append] at ht
      rcases List.mem_append.mp ht with h1 | h2
      · have : u ∈ extL.map Prod.fst := List.mem_map_of_mem Prod.fst h1
        exact hul (hsubL.mem this)
      · have : u ∈ ext.map Prod.fst := List.mem_map_of_mem Prod.fst h2
        exact hur (hsub.mem this)
  · right
    have hany' : (taskDeps tsu.task).any
        (depFailed (l.foldl execStep ⟨reg.tasks, [], []⟩).tasks) = false := by
      cases hb : (taskDeps tsu.task).any
          (depFailed (l.foldl execStep ⟨reg.tasks, [], []⟩).tasks) with
      | false => rfl
      | true => exact absurd hb hany
    have hstep := execStep_invoke huL hany'
    refine ⟨fun hdf => hany (hany_iff.mpr hdf), ?_, ?_, ?_⟩
    · rw [hft, hfold, foldExec_tasks_not_mem r _ hur, hstep]
      exact findA_setAssoc_self _ _ _
    · rw [hres, hfold, foldExec_results_not_mem r _ hur, hstep]
      exact findA_setAssoc_self _ _ _
    · rw [hinv, hfold]
      obtain ⟨ext, hext, _, _⟩ := foldExec_invoked r (execStep (l.foldl execStep ⟨reg.tasks, [], []⟩) u)
      rw [hext, hstep]
      simp

end Genesis

namespace Genesis

/-! ## `register` lemmas -/

theorem register_of_hasId {reg : TaskRegistry} {t : Task}
    (h : reg.hasId t.id = true) : reg.register t = reg := by
  simp [TaskRegistry.register, h]

theorem hasId_register_same (reg : TaskRegistry) (t : Task) :
    (reg.register t).hasId t.id = true := by
  rw [TaskRegistry.register]
  by_cases h : reg.hasId t.id = true
  · simp [h]
  · have h' : reg.hasId t.id = false := by
      cases hb : reg.hasId t.id with
      | false => rfl
      | true => exact absurd hb h
    simp only [h', Bool.false_eq_true, if_false]
    simp only [TaskRegistry.hasId] at h' ⊢
    rw [findA_append]
    cases hf : findA reg.tasks t.id with
    | some v =>
      rw [hf] at h'
      simp at h'
    | none => simp [findA]

theorem register_register_same {reg : TaskRegistry} {t1 t2 : Task}
    (h : t2.id = t1.id) : (reg.register t1).register t2 = reg.register t1 := by
  apply register_of_hasId
  rw [h]
  exact hasId_register_same reg t1

theorem registerFold_same_id {i : String} :
    ∀ (l : List Task) (reg : TaskRegistry), (∀ t', t' ∈ l → t'.id = i) →
      reg.hasId i = true → l.foldl TaskRegistry.register reg = reg := by
  intro l
  induction l with
  | nil => intro reg _ _; rfl
  | cons t rest ih =>
    intro reg hids hhas
    rw [List.foldl_cons, register_of_hasId (by rw [hids t (by simp)]; exact hhas)]
    exact ih reg (fun t' ht' => hids t' (List.mem_cons_of_mem _ ht')) hhas

theorem register_length_le (reg : TaskRegistry) (t : Task) :
    (reg.register t).tasks.length ≤ reg.tasks.length + 1 := by
  rw [TaskRegistry.register]
  by_cases h : reg.hasId t.id = true
  · simp [h]
  · have h' : reg.hasId t.id = false := by
      cases hb : reg.hasId t.id with
      | false => rfl
      | true => exact absurd hb h
    simp [h']

/-! ## `executeAll` wrappers used by the claims -/

theorem edge_taskGraph {reg : TaskRegistry} {a b : String} :
    EdgeB reg.graph a b ↔
      ∃ tsa, findA reg.tasks a = some tsa ∧ b ∈ taskDeps tsa.task := by
  rw [EdgeB]
  cases h : findA reg.tasks a with
  | none => simp [TaskRegistry.graph, gdeps, h]
  | some tsa => simp [TaskRegistry.graph, gdeps, h]

theorem executeAll_outcome_ok {reg : TaskRegistry}
    (h : ¬ HasCycle reg.graph) :
    ∃ res, reg.executeAll.outcome = Except.ok res := by
  by_cases he : reg.tasks.isEmpty
  · exact ⟨[], by rw [TaskRegistry.executeAll]; simp [he]⟩
  · obtain ⟨o, ho⟩ := topologicalSort_total h
    refine ⟨(o.foldl execStep ⟨reg.tasks, [], []⟩).results, ?_⟩
    rw [TaskRegistry.executeAll]
    simp [he, ho]

theorem executeAll_cycle {reg : TaskRegistry} (h : HasCycle reg.graph) :
    ∃ x, reg.executeAll =
        ⟨Except.error (SortErr.cyclic x), reg.tasks, []⟩ ∧
      ∃ p, PathTo reg.graph x p x := by
  have hne : ¬ reg.tasks.isEmpty := by
    rcases h with ⟨x, p, hp⟩
    have hx := pathTo_src p x x hp
    intro he
    cases hl : reg.tasks with
    | nil =>
      rw [TaskRegistry.graph] at hx
      rw [hl] at hx
      simp [findA] at hx
    | cons a as =>
      rw [hl] at he
      simp at he
  cases hs : reg.topologicalSort with
  | ok order =>
    obtain ⟨_, _, _, hnc⟩ := topologicalSort_ok_spec hs
    exact absurd h hnc
  | error e =>
    obtain ⟨x, rfl, hp⟩ := topologicalSort_err_spec hs
    refine ⟨x, ?_, hp⟩
    rw [TaskRegistry.executeAll]
    simp [hne, hs]

theorem executeAll_invoked_sublist {reg : TaskRegistry} {order : List String}
    (hs : reg.topologicalSort = Except.ok order) :
    List.Sublist (reg.executeAll.invoked.map Prod.fst) order := by
  by_cases hne : reg.tasks.isEmpty
  · rw [TaskRegistry.executeAll]
    simp [hne]
  · have hexec : reg.executeAll.invoked =
        (order.foldl execStep ⟨reg.tasks, [], []⟩).invoked := by
      rw [TaskRegistry.executeAll]
      simp [hne, hs]
    rw [hexec]
    obtain ⟨ext, hext, _, hsub⟩ := foldExec_invoked order ⟨reg.tasks, [], []⟩
    rw [hext]
    simpa using hsub

theorem executeAll_invoked_tag {reg : TaskRegistry} {pr : String × Nat}
    (h : pr ∈ reg.executeAll.invoked) :
    ∃ ts, findA reg.tasks pr.1 = some ts ∧ pr.2 = ts.task.tag := by
  by_cases hne : reg.tasks.isEmpty
  · rw [TaskRegistry.executeAll] at h
    simp [hne] at h
  · cases hs : reg.topologicalSort with
    | error e =>
      rw [TaskRegistry.executeAll] at h
      simp [hne, hs] at h
    | ok order =>
      have hexec : reg.executeAll.invoked =
          (order.foldl execStep ⟨reg.tasks, [], []⟩).invoked := by
        rw [TaskRegistry.executeAll]
        simp [hne, hs]
      rw [hexec] at h
      obtain ⟨ext, hext, hprov, _⟩ := foldExec_invoked order ⟨reg.tasks, [], []⟩
      rw [hext] at h
      simp only [List.nil_append] at h
      exact hprov pr h

theorem nodup_mem_singleton {l : List String} {i : String}
    (hnd : l.Nodup) (hmem : ∀ x, x ∈ l ↔ x = i) : l = [i] := by
  cases l with
  | nil =>
    exfalso
    have := (hmem i).mpr rfl
    simp at this
  | cons a rest =>
    have ha : a = i := (hmem a).mp (by simp)
    subst ha
    cases rest with
    | nil => rfl
    | cons b rest' =>
      have hb : b = a := (hmem b).mp (by simp)
      subst hb
      simp at hnd

end Genesis

namespace Genesis

/-! ## Additional helpers for the claim theorems -/

theorem pathTo_last_edge {g : String → Option (List String)} :
    ∀ (p : List String) (a b : String), PathTo g a p b →
      ∃ y, EdgeB g y b := by
  intro p
  induction p with
  | nil =>
    intro a b h
    exact ⟨a, h⟩
  | cons c cs ih =>
    intro a b h
    exact ih c b h.2

theorem executeAll_keys (reg : TaskRegistry) (d : String) :
    (findA reg.executeAll.finalTasks d).isSome =
      (findA reg.tasks d).isSome := by
  by_cases hne : reg.tasks.isEmpty
  · rw [TaskRegistry.executeAll]
    simp [hne]
  · cases hs : reg.topologicalSort with
    | error e =>
      rw [TaskRegistry.executeAll]
      simp [hne, hs]
    | ok order =>
      have hft : reg.executeAll.finalTasks =
          (order.foldl execStep ⟨reg.tasks, [], []⟩).tasks := by
        rw [TaskRegistry.executeAll]
        simp [hne, hs]
      rw [hft]
      exact foldExec_tasks_isSome order _ d

theorem register_empty (t : Task) :
    emptyRegistry.register t =
      ⟨[(t.id, { task := t, status := TaskStatus.pending })]⟩ := by
  rw [TaskRegistry.register]
  simp [TaskRegistry.hasId, emptyRegistry, findA]

theorem single_graph_some {i : String} {ts : TaskState} {x : String}
    (h : ((⟨[(i, ts)]⟩ : TaskRegistry).graph x).isSome = true) : x = i := by
  by_cases hx : x = i
  · exact hx
  · exfalso
    revert h
    simp [TaskRegistry.graph, findA, Ne.symm hx]

/-! ## Claim theorems for the task registry -/

/-- C2: for every registry whose dependency graph is acyclic,
`executeAll`'s execution order (the output of `topologicalSort`, which
the execution loop follows) is a valid topological order: it lists
every registered id exactly once, and every registered dependency of a
task occurs strictly before the task, even when the dependency has
lower priority.  Priority acts as the tiebreak among unconstrained
tasks: in the concrete A(200)/B(100)/C(50) scenario with no
dependencies the execution order is A, B, C, and in the concrete
scenario where B(100) depends on A(10), A still executes first. -/
theorem claim_C2_topological_order (reg : TaskRegistry)
    (hacyclic : ¬ HasCycle reg.graph) :
    (∃ order, reg.topologicalSort = Except.ok order ∧
      order.Nodup ∧
      (∀ i, i ∈ order ↔ reg.hasId i = true) ∧
      (∀ l u r, order = l ++ u :: r → ∀ tsu, findA reg.tasks u = some tsu →
        ∀ d, d ∈ taskDeps tsu.task → reg.hasId d = true → d ∈ l) ∧
      List.Sublist (reg.executeAll.invoked.map Prod.fst) order) ∧
    regABC.executeAll.invoked.map Prod.fst = ["A", "B", "C"] ∧
    regPrio.executeAll.invoked.map Prod.fst = ["A", "B"] := by
  refine ⟨?_, by decide, by decide⟩
  obtain ⟨order, hs⟩ := topologicalSort_total hacyclic
  obtain ⟨hnd, hmemiff, hgood, _⟩ := topologicalSort_ok_spec hs
  refine ⟨order, hs, hnd, ?_, ?_, executeAll_invoked_sublist hs⟩
  · intro i
    rw [hmemiff i, graph_isSome]
    simp [TaskRegistry.hasId]
  · intro l u r horder tsu hu d hd hdreg
    apply hgood l u r horder d
    · simp only [gdeps, TaskRegistry.graph, hu, Option.map_some',
        Option.getD_some]
      exact hd
    · rw [graph_isSome]
      simpa [TaskRegistry.hasId] using hdreg

/-- C2 witness: the theorem applied to the concrete A/B/C registry,
whose graph is acyclic because its sort succeeds. -/
theorem claim_C2_topological_order_witness :
    (∃ order, regABC.topologicalSort = Except.ok order ∧
      order.Nodup ∧
      (∀ i, i ∈ order ↔ regABC.hasId i = true) ∧
      (∀ l u r, order = l ++ u :: r →
        ∀ tsu, findA regABC.tasks u = some tsu →
        ∀ d, d ∈ taskDeps tsu.task → regABC.hasId d = true → d ∈ l) ∧
      List.Sublist (regABC.executeAll.invoked.map Prod.fst) order) ∧
    regABC.executeAll.invoked.map Prod.fst = ["A", "B", "C"] ∧
    regPrio.executeAll.invoked.map Prod.fst = ["A", "B"] :=
  claim_C2_topological_order regABC
    (topologicalSort_ok_spec
      (show regABC.topologicalSort = Except.ok ["A", "B", "C"] from
        rfl)).2.2.2

/-- C5: a registry with a dependency cycle makes `executeAll` raise the
fatal ordering error, whose message names an id lying on a cycle, with
no executor invoked and every task state left untouched (hence no task
reaches status running, completed, or failed). -/
theorem claim_C5_cycle_fatal (reg : TaskRegistry)
    (h : HasCycle reg.graph) :
    ∃ x, reg.executeAll.outcome = Except.error (SortErr.cyclic x) ∧
      (∃ p, PathTo reg.graph x p x) ∧
      taskErrMessage (SortErr.cyclic x) =
        "Cyclic task dependency detected: " ++ x ∧
      reg.executeAll.invoked = [] ∧
      reg.executeAll.finalTasks = reg.tasks := by
  obtain ⟨x, hexec, hp⟩ := executeAll_cycle h
  exact ⟨x, by rw [hexec], hp, rfl, by rw [hexec], by rw [hexec]⟩

/-- C5 witness: the theorem applied to the concrete two-task cycle
`A dependsOn B`, `B dependsOn A`. -/
theorem claim_C5_cycle_fatal_witness :
    ∃ x, cycReg.executeAll.outcome = Except.error (SortErr.cyclic x) ∧
      (∃ p, PathTo cycReg.graph x p x) ∧
      taskErrMessage (SortErr.cyclic x) =
        "Cyclic task dependency detected: " ++ x ∧
      cycReg.executeAll.invoked = [] ∧
      cycReg.executeAll.finalTasks = cycReg.tasks :=
  claim_C5_cycle_fatal cycReg ⟨"A", ["B"], by decide⟩

end Genesis

namespace Genesis

/-- C6: if B lists A among its dependencies and A ends the run with
status failed, `executeAll` marks B failed with the "Dependencies
failed" result and never invokes B's executor; the skip propagates
through every dependency chain ending at A. -/
theorem claim_C6_failure_propagation {reg : TaskRegistry}
    {res : List (String × TaskResult)} {A B : String}
    {tsA tsB : TaskState}
    (houtcome : reg.executeAll.outcome = Except.ok res)
    (hB : findA reg.tasks B = some tsB)
    (hA : findA reg.tasks A = some tsA)
    (hdep : A ∈ taskDeps tsB.task)
    (hAfail : (findA reg.executeAll.finalTasks A).map TaskState.status =
      some TaskStatus.failed) :
    (findA reg.executeAll.finalTasks B = some (skippedState tsB) ∧
      findA res B = some depFailedResult ∧
      depFailedResult.ok = false ∧
      depFailedResult.error = some "Dependencies failed" ∧
      ∀ t, (B, t) ∉ reg.executeAll.invoked) ∧
    (∀ C p, PathTo reg.graph C p A →
      ∃ tsC, findA reg.tasks C = some tsC ∧
        findA reg.executeAll.finalTasks C = some (skippedState tsC) ∧
        findA res C = some depFailedResult ∧
        ∀ t, (C, t) ∉ reg.executeAll.invoked) := by
  have hdirect : ∀ (u : String) (tsu : TaskState),
      findA reg.tasks u = some tsu →
      (∃ d, d ∈ taskDeps tsu.task ∧
        (findA reg.executeAll.finalTasks d).map TaskState.status =
          some TaskStatus.failed) →
      findA reg.executeAll.finalTasks u = some (skippedState tsu) ∧
        findA res u = some depFailedResult ∧
        ∀ t, (u, t) ∉ reg.executeAll.invoked := by
    intro u tsu hu hdf
    rcases executeAll_processed houtcome hu with
      ⟨_, hft, hres, hninv⟩ | ⟨hnd, _, _, _⟩
    · exact ⟨hft, hres, hninv⟩
    · exact absurd hdf hnd
  constructor
  · obtain ⟨hft, hres, hninv⟩ := hdirect B tsB hB ⟨A, hdep, hAfail⟩
    exact ⟨hft, hres, rfl, rfl, hninv⟩
  · intro C p
    induction p generalizing C with
    | nil =>
      intro hp
      obtain ⟨tsC, hC, hmemdep⟩ := edge_taskGraph.mp hp
      obtain ⟨hft, hres, hninv⟩ := hdirect C tsC hC ⟨A, hmemdep, hAfail⟩
      exact ⟨tsC, hC, hft, hres, hninv⟩
    | cons c cs ih =>
      intro hp
      obtain ⟨hedge, hrest⟩ := hp
      obtain ⟨tsc, hcfail⟩ := ih c hrest
      obtain ⟨tsC, hC, hmemdep⟩ := edge_taskGraph.mp hedge
      have hcf : (findA reg.executeAll.finalTasks c).map TaskState.status =
          some TaskStatus.failed := by
        rw [hcfail.2.1]
        simp [skippedState]
      obtain ⟨hft, hres, hninv⟩ := hdirect C tsC hC ⟨c, hmemdep, hcf⟩
      exact ⟨tsC, hC, hft, hres, hninv⟩

/-- C6 witness: the theorem applied to the concrete scenario where A's
executor throws and B depends on A. -/
theorem claim_C6_failure_propagation_witness :
    (findA regProp.executeAll.finalTasks "B" =
        some (skippedState { task := propB, status := TaskStatus.pending }) ∧
      findA [("A", ({ ok := false, error := some "boom" } : TaskResult)),
          ("B", depFailedResult), ("C", { ok := true })] "B" =
        some depFailedResult ∧
      depFailedResult.ok = false ∧
      depFailedResult.error = some "Dependencies failed" ∧
      ∀ t, ("B", t) ∉ regProp.executeAll.invoked) ∧
    (∀ C p, PathTo regProp.graph C p "A" →
      ∃ tsC, findA regProp.tasks C = some tsC ∧
        findA regProp.executeAll.finalTasks C = some (skippedState tsC) ∧
        findA [("A", ({ ok := false, error := some "boom" } : TaskResult)),
          ("B", depFailedResult), ("C", { ok := true })] C =
          some depFailedResult ∧
        ∀ t, (C, t) ∉ regProp.executeAll.invoked) :=
  @claim_C6_failure_propagation regProp
    [("A", { ok := false, error := some "boom" }),
      ("B", depFailedResult), ("C", { ok := true })] "A" "B"
    { task := propA, status := TaskStatus.pending }
    { task := propB, status := TaskStatus.pending }
    rfl (by decide) (by decide) (by decide) (by decide)

/-- C10: duplicate registration is first-wins: registering `t2` after a
task `t1` with the same id leaves the registry exactly as after
registering `t1` alone, so `executeAll` (ordering, statuses, trace) is
unchanged, and every executor invocation carries the tag of the
executor stored in the registry — hence `t2`'s executor is never the
one invoked. -/
theorem claim_C10_register_first_wins (t1 t2 : Task) (h : t2.id = t1.id) :
    (∀ reg : TaskRegistry, (reg.register t1).register t2 = reg.register t1) ∧
    (∀ reg : TaskRegistry,
      ((reg.register t1).register t2).executeAll.outcome =
        (reg.register t1).executeAll.outcome ∧
      ((reg.register t1).register t2).executeAll.finalTasks =
        (reg.register t1).executeAll.finalTasks ∧
      ((reg.register t1).register t2).executeAll.invoked =
        (reg.register t1).executeAll.invoked) ∧
    (∀ (reg : TaskRegistry) (pr : String × Nat),
      pr ∈ reg.executeAll.invoked →
      ∃ ts, findA reg.tasks pr.1 = some ts ∧ pr.2 = ts.task.tag) := by
  refine ⟨fun reg => register_register_same h, ?_, ?_⟩
  · intro reg
    rw [register_register_same h]
    exact ⟨rfl, rfl, rfl⟩
  · intro reg pr hpr
    exact executeAll_invoked_tag hpr

/-- C10 witness: the theorem applied to two concrete tasks sharing an
id but differing in description, priority, dependencies and executor. -/
theorem claim_C10_register_first_wins_witness :
    (∀ reg : TaskRegistry,
      (reg.register tA).register
          { id := "A", description := "other", tag := 99,
            run := ExecBehavior.throws "x", priority := some 1,
            dependsOn := some ["B"] } =
        reg.register tA) ∧
    (∀ reg : TaskRegistry,
      ((reg.register tA).register
          { id := "A", description := "other", tag := 99,
            run := ExecBehavior.throws "x", priority := some 1,
            dependsOn := some ["B"] }).executeAll.outcome =
        (reg.register tA).executeAll.outcome ∧
      ((reg.register tA).register
          { id := "A", description := "other", tag := 99,
            run := ExecBehavior.throws "x", priority := some 1,
            dependsOn := some ["B"] }).executeAll.finalTasks =
        (reg.register tA).executeAll.finalTasks ∧
      ((reg.register tA).register
          { id := "A", description := "other", tag := 99,
            run := ExecBehavior.throws "x", priority := some 1,
            dependsOn := some ["B"] }).executeAll.invoked =
        (reg.register tA).executeAll.invoked) ∧
    (∀ (reg : TaskRegistry) (pr : String × Nat),
      pr ∈ reg.executeAll.invoked →
      ∃ ts, findA reg.tasks pr.1 = some ts ∧ pr.2 = ts.task.tag) :=
  claim_C10_register_first_wins tA
    { id := "A", description := "other", tag := 99,
      run := ExecBehavior.throws "x", priority := some 1,
      dependsOn := some ["B"] } rfl

end Genesis

namespace Genesis

/-- C7 counterexample: in the registry where both `t1` and `t2` throw
and `t3` depends only on `t2`, the failing task `t1` is registered,
`t3` is subsequent and has no dependency on `t1` (neither directly nor
through any chain), yet `t3`'s executor is never invoked — refuting the
claim's "every subsequent task with no dependency on the failed one
still has its executor invoked" as stated. -/
theorem claim_C7_counterexample :
    FailingBehavior failT1 ∧
    regT123.executeAll.outcome = Except.ok
      [("t1", { ok := false, error := some "boom1" }),
       ("t2", { ok := false, error := some "boom2" }),
       ("t3", depFailedResult)] ∧
    regT123.executeAll.invoked = [("t1", 1), ("t2", 2)] ∧
    "t3" ∉ regT123.executeAll.invoked.map Prod.fst ∧
    taskDeps failT3 = ["t2"] ∧
    "t1" ∉ taskDeps failT3 ∧
    ¬ (∃ p, PathTo regT123.graph "t3" p "t1") := by
  refine ⟨Or.inl ⟨"boom1", rfl⟩, rfl, rfl, by decide, rfl, by decide, ?_⟩
  rintro ⟨p, hp⟩
  cases p with
  | nil => exact absurd hp.2 (by decide)
  | cons c cs =>
    obtain ⟨he, hrest⟩ := hp
    have hc : c = "t2" := by
      have hm : c ∈ gdeps regT123.graph "t3" := he.2
      rw [show gdeps regT123.graph "t3" = ["t2"] from rfl] at hm
      simpa using hm
    subst hc
    cases cs with
    | nil =>
      have hm : "t1" ∈ gdeps regT123.graph "t2" := hrest.2
      rw [show gdeps regT123.graph "t2" = [] from rfl] at hm
      simp at hm
    | cons c2 cs2 =>
      obtain ⟨he2, _⟩ := hrest
      have hm : c2 ∈ gdeps regT123.graph "t2" := he2.2
      rw [show gdeps regT123.graph "t2" = [] from rfl] at hm
      simp at hm

/-- C7 (amended): a registered task whose executor throws or returns a
not-ok result is recorded as a failed `TaskResult` without aborting
`executeAll` (the run returns its result mapping whenever the graph is
acyclic, whatever the executors do), and every task none of whose
dependencies ends the run failed still has its executor invoked. -/
theorem claim_C7_partial_failure (reg : TaskRegistry)
    {res : List (String × TaskResult)}
    (houtcome : reg.executeAll.outcome = Except.ok res) :
    (∀ u tsu, findA reg.tasks u = some tsu → FailingBehavior tsu.task →
      ∃ r', findA res u = some r' ∧ r'.ok = false ∧
        (findA reg.executeAll.finalTasks u).map TaskState.status =
          some TaskStatus.failed) ∧
    (∀ u tsu, findA reg.tasks u = some tsu → ¬ DepFailedFinal reg tsu →
      (u, tsu.task.tag) ∈ reg.executeAll.invoked) ∧
    (∀ reg' : TaskRegistry, ¬ HasCycle reg'.graph →
      ∃ res', reg'.executeAll.outcome = Except.ok res') := by
  refine ⟨?_, ?_, fun reg' h => executeAll_outcome_ok h⟩
  · intro u tsu hu hfb
    rcases executeAll_processed houtcome hu with
      ⟨_, hft, hres, _⟩ | ⟨_, hft, hres, _⟩
    · refine ⟨depFailedResult, hres, rfl, ?_⟩
      rw [hft]
      simp [skippedState]
    · refine ⟨invokedResult tsu, hres, ?_, ?_⟩
      · rcases hfb with ⟨msg, hrun⟩ | ⟨r, hrun, hok⟩
        · simp [invokedResult, hrun]
        · simp [invokedResult, hrun, hok]
      · rw [hft]
        rcases hfb with ⟨msg, hrun⟩ | ⟨r, hrun, hok⟩
        · simp [invokedState, hrun]
        · simp [invokedState, hrun, hok]
  · intro u tsu hu hnd
    rcases executeAll_processed houtcome hu with
      ⟨hdf, _, _, _⟩ | ⟨_, _, _, hmem⟩
    · exact absurd hdf hnd
    · exact hmem

/-- C7 witness: the amended theorem applied to the concrete
partial-failure registry (t1 and t2 throw, t3 depends on t2). -/
theorem claim_C7_partial_failure_witness :
    (∀ u tsu, findA regT123.tasks u = some tsu → FailingBehavior tsu.task →
      ∃ r', findA [("t1", ({ ok := false, error := some "boom1" } : TaskResult)),
          ("t2", { ok := false, error := some "boom2" }),
          ("t3", depFailedResult)] u = some r' ∧ r'.ok = false ∧
        (findA regT123.executeAll.finalTasks u).map TaskState.status =
          some TaskStatus.failed) ∧
    (∀ u tsu, findA regT123.tasks u = some tsu →
      ¬ DepFailedFinal regT123 tsu →
      (u, tsu.task.tag) ∈ regT123.executeAll.invoked) ∧
    (∀ reg' : TaskRegistry, ¬ HasCycle reg'.graph →
      ∃ res', reg'.executeAll.outcome = Except.ok res') :=
  claim_C7_partial_failure regT123 rfl

end Genesis

namespace Genesis

/-- C1 counterexample: for the task with id "a" depending on its own id
(N = 1 registration), the registry stores exactly one task, but the
subsequent `executeAll` raises the cycle error and invokes the stored
executor zero times — not exactly once as the claim states for every
task. -/
theorem claim_C1_counterexample :
    regSelf.tasks.length = 1 ∧
    regSelf.executeAll.invoked = [] ∧
    regSelf.executeAll.outcome = Except.error (SortErr.cyclic "a") := by
  exact ⟨rfl, rfl, rfl⟩

/-- C1 (amended): for every task `t` whose `dependsOn` does not list
`t`'s own id and every N ≥ 1, registering N tasks sharing `t`'s id
(with `t` first) stores exactly one task — the first — with no error
(registration is total and grows the registry by at most one entry per
call), and a subsequent `executeAll` invokes the stored executor
exactly once. -/
theorem claim_C1_registration_dedup (i : String) (t : Task)
    (rest : List Task) (hid : t.id = i)
    (hrest : ∀ t', t' ∈ rest → t'.id = i)
    (hself : i ∉ taskDeps t) :
    rest.foldl TaskRegistry.register (emptyRegistry.register t) =
      emptyRegistry.register t ∧
    (emptyRegistry.register t).tasks.length = 1 ∧
    (∀ (reg : TaskRegistry) (t' : Task),
      (reg.register t').tasks.length ≤ reg.tasks.length + 1) ∧
    (emptyRegistry.register t).executeAll.invoked = [(i, t.tag)] ∧
    ∃ res, (emptyRegistry.register t).executeAll.outcome = Except.ok res := by
  subst hid
  have hreg1 := register_empty t
  have h1 : rest.foldl TaskRegistry.register (emptyRegistry.register t) =
      emptyRegistry.register t :=
    registerFold_same_id rest _ hrest (hasId_register_same emptyRegistry t)
  have h2 : (emptyRegistry.register t).tasks.length = 1 := by
    rw [hreg1]
    rfl
  have hnc : ¬ HasCycle (emptyRegistry.register t).graph := by
    rw [hreg1]
    rintro ⟨x, p, hp⟩
    have hx : x = t.id := single_graph_some (pathTo_src p x x hp)
    subst hx
    obtain ⟨y, hy⟩ := pathTo_last_edge p t.id t.id hp
    have hy' : y = t.id := single_graph_some hy.1
    subst hy'
    have hmem : t.id ∈ taskDeps t := by
      have hd := hy.2
      simpa [gdeps, TaskRegistry.graph, findA] using hd
    exact hself hmem
  obtain ⟨res, hres⟩ := executeAll_outcome_ok hnc
  have hu : findA (emptyRegistry.register t).tasks t.id =
      some { task := t, status := TaskStatus.pending } := by
    rw [hreg1]
    simp [findA]
  have hnodep : ¬ DepFailedFinal (emptyRegistry.register t)
      { task := t, status := TaskStatus.pending } := by
    rintro ⟨d, hd, hfail⟩
    have hdne : t.id ≠ d := fun hh => hself (hh ▸ hd)
    have hdnone : findA (emptyRegistry.register t).tasks d = none := by
      rw [hreg1]
      simp [findA, hdne]
    have hkey := executeAll_keys (emptyRegistry.register t) d
    rw [hdnone] at hkey
    cases hff : findA (emptyRegistry.register t).executeAll.finalTasks d with
    | none =>
      rw [hff] at hfail
      simp at hfail
    | some sd =>
      rw [hff] at hkey
      simp at hkey
  have hmem : (t.id, t.tag) ∈ (emptyRegistry.register t).executeAll.invoked := by
    rcases executeAll_processed hres hu with ⟨hdf, _, _, _⟩ | ⟨_, _, _, hm⟩
    · exact absurd hdf hnodep
    · exact hm
  have hne1 : ¬ (emptyRegistry.register t).tasks.isEmpty := by
    rw [hreg1]
    simp
  obtain ⟨order, hs, _, _, _⟩ := executeAll_dissect hres hne1
  obtain ⟨hnd, hmemiff, _, _⟩ := topologicalSort_ok_spec hs
  have horder : order = [t.id] := by
    apply nodup_mem_singleton hnd
    intro x
    rw [hmemiff x]
    constructor
    · intro hx
      exact single_graph_some (hreg1 ▸ hx)
    · intro hx
      subst hx
      rw [hreg1]
      simp [TaskRegistry.graph, findA]
  have hsub := executeAll_invoked_sublist hs
  rw [horder] at hsub
  have hinvoked : (emptyRegistry.register t).executeAll.invoked =
      [(t.id, t.tag)] := by
    cases hinv : (emptyRegistry.register t).executeAll.invoked with
    | nil =>
      rw [hinv] at hmem
      simp at hmem
    | cons pr rest' =>
      cases rest' with
      | nil =>
        rw [hinv] at hmem
        have : (t.id, t.tag) = pr := by simpa using hmem
        rw [← this]
      | cons pr2 rest'' =>
        exfalso
        rw [hinv] at hsub
        have hlen := hsub.length_le
        simp at hlen
  exact ⟨h1, h2, fun reg t' => register_length_le reg t', hinvoked, res, hres⟩

/-- C1 witness: the amended theorem applied to two concrete
registrations sharing id "A". -/
theorem claim_C1_registration_dedup_witness :
    [{ tA with description := "dup", tag := 50 }].foldl TaskRegistry.register
        (emptyRegistry.register tA) =
      emptyRegistry.register tA ∧
    (emptyRegistry.register tA).tasks.length = 1 ∧
    (∀ (reg : TaskRegistry) (t' : Task),
      (reg.register t').tasks.length ≤ reg.tasks.length + 1) ∧
    (emptyRegistry.register tA).executeAll.invoked = [("A", tA.tag)] ∧
    ∃ res, (emptyRegistry.register tA).executeAll.outcome = Except.ok res :=
  claim_C1_registration_dedup "A" tA
    [{ tA with description := "dup", tag := 50 }] rfl
    (by
      intro t' ht'
      simp only [List.mem_singleton] at ht'
      subst ht'
      rfl) (by decide)

/-- C3 counterexample: the task "t" lists the unregistered dependency
id "m"; the sort tolerates it, but — contrary to the claim — the task
does not fail at execution time: its executor is invoked and it
completes. -/
theorem claim_C3_counterexample :
    taskDeps missTask = ["m"] ∧
    regMiss.hasId "m" = false ∧
    regMiss.executeAll.outcome = Except.ok [("t", { ok := true })] ∧
    regMiss.executeAll.invoked = [("t", 7)] ∧
    (findA regMiss.executeAll.finalTasks "t").map TaskState.status =
      some TaskStatus.completed := by
  exact ⟨rfl, rfl, rfl, rfl, rfl⟩

/-- C3 (amended): a dependency id registered by no task is tolerated
during the sort step (`topologicalSort` never raises a missing-id
error), and is also tolerated during execution: it never counts as a
failed dependency, so a task whose registered dependencies all end
non-failed has its executor invoked even when its `dependsOn` lists an
unregistered id, and its status reflects only its own executor's
outcome. -/
theorem claim_C3_missing_dep (reg : TaskRegistry) {u : String}
    {tsu : TaskState} {res : List (String × TaskResult)}
    (houtcome : reg.executeAll.outcome = Except.ok res)
    (hu : findA reg.tasks u = some tsu)
    (hmiss : ∃ d, d ∈ taskDeps tsu.task ∧ reg.hasId d = false)
    (hdeps : ∀ d, d ∈ taskDeps tsu.task →
      (findA reg.executeAll.finalTasks d).map TaskState.status ≠
        some TaskStatus.failed) :
    ((u, tsu.task.tag) ∈ reg.executeAll.invoked ∧
      findA reg.executeAll.finalTasks u = some (invokedState tsu) ∧
      findA res u = some (invokedResult tsu)) ∧
    (∀ (reg' : TaskRegistry) (x : String),
      reg'.topologicalSort ≠ Except.error (SortErr.missing x)) := by
  constructor
  · rcases executeAll_processed houtcome hu with
      ⟨⟨d, hd, hfail⟩, _, _, _⟩ | ⟨_, hft, hres, hm⟩
    · exact absurd hfail (hdeps d hd)
    · exact ⟨hm, hft, hres⟩
  · intro reg' x hx
    obtain ⟨y, hy, _⟩ := topologicalSort_err_spec hx
    exact SortErr.noConfusion hy

/-- C3 witness: the amended theorem applied to the concrete registry
whose only task depends on the unregistered id "m". -/
theorem claim_C3_missing_dep_witness :
    (("t", missTask.tag) ∈ regMiss.executeAll.invoked ∧
      findA regMiss.executeAll.finalTasks "t" =
        some (invokedState { task := missTask, status := TaskStatus.pending }) ∧
      findA [("t", ({ ok := true } : TaskResult))] "t" =
        some (invokedResult { task := missTask, status := TaskStatus.pending })) ∧
    (∀ (reg' : TaskRegistry) (x : String),
      reg'.topologicalSort ≠ Except.error (SortErr.missing x)) :=
  @claim_C3_missing_dep regMiss "t"
    { task := missTask, status := TaskStatus.pending }
    [("t", { ok := true })] rfl rfl ⟨"m", by decide, by decide⟩ (by decide)

end Genesis

namespace Genesis

/-! ## The plugin graph: `byId` and `buildPluginGraph` -/

theorem setAssoc_of_none {α : Type} :
    ∀ {l : List (String × α)} {i : String} (v : α), findA l i = none →
      setAssoc l i v = l ++ [(i, v)] := by
  intro l
  induction l with
  | nil => intro i v _; rfl
  | cons p rest ih =>
    intro i v h
    rcases p with ⟨k, w⟩
    by_cases hk : k = i
    · subst hk
      simp [findA] at h
    · simp only [findA, hk, if_neg, if_false] at h
      simp [setAssoc, hk, ih v h]

theorem buildById_eq_map :
    ∀ (nodes : List PluginExecutionNode)
      (acc : List (String × PluginExecutionNode)),
      (nodes.map (fun n => n.inst.id)).Nodup →
      (∀ n, n ∈ nodes → findA acc n.inst.id = none) →
      nodes.foldl (fun m n => setAssoc m n.inst.id n) acc =
        acc ++ nodes.map (fun n => (n.inst.id, n)) := by
  intro nodes
  induction nodes with
  | nil =>
    intro acc _ _
    simp
  | cons n rest ih =>
    intro acc hnd hnone
    obtain ⟨hni, hndr⟩ := List.nodup_cons.mp hnd
    rw [List.foldl_cons, setAssoc_of_none n (hnone n (by simp))]
    rw [ih (acc ++ [(n.inst.id, n)]) hndr ?_]
    · simp
    · intro m hm
      rw [findA_append, hnone m (List.mem_cons_of_mem _ hm)]
      have hne : n.inst.id ≠ m.inst.id := by
        intro hh
        have hmm : m.inst.id ∈ rest.map (fun n => n.inst.id) :=
          List.mem_map_of_mem _ hm
        rw [← hh] at hmm
        exact hni hmm
      simp [findA, hne]

theorem buildById_of_nodup {nodes : List PluginExecutionNode}
    (hnd : (nodes.map (fun n => n.inst.id)).Nodup) :
    buildById nodes = nodes.map (fun n => (n.inst.id, n)) := by
  rw [buildById, buildById_eq_map nodes [] hnd (fun n _ => rfl)]
  simp

theorem findA_map_assoc :
    ∀ {nodes : List PluginExecutionNode} {i : String},
      (findA (nodes.map (fun n => (n.inst.id, n))) i).isSome = true ↔
        i ∈ nodes.map (fun n => n.inst.id) := by
  intro nodes
  induction nodes with
  | nil => simp [findA]
  | cons n rest ih =>
    intro i
    by_cases h : n.inst.id = i
    · simp [findA, h]
    · have h' : ¬ i = n.inst.id := fun hh => h hh.symm
      simp [findA, h, h', ih]

theorem findA_map_assoc_mem :
    ∀ {nodes : List PluginExecutionNode} {i : String}
      {n : PluginExecutionNode},
      findA (nodes.map (fun m => (m.inst.id, m))) i = some n →
      n ∈ nodes ∧ n.inst.id = i := by
  intro nodes
  induction nodes with
  | nil => intro i n h; simp [findA] at h
  | cons m rest ih =>
    intro i n h
    by_cases hm : m.inst.id = i
    · simp [findA, hm] at h
      subst h
      exact ⟨by simp, hm⟩
    · simp only [List.map_cons, findA, hm, if_neg, if_false] at h
      obtain ⟨h1, h2⟩ := ih h
      exact ⟨List.mem_cons_of_mem _ h1, h2⟩

theorem findA_map_assoc_self :
    ∀ {nodes : List PluginExecutionNode},
      (nodes.map (fun n => n.inst.id)).Nodup →
      ∀ {n : PluginExecutionNode}, n ∈ nodes →
      findA (nodes.map (fun m => (m.inst.id, m))) n.inst.id = some n := by
  intro nodes
  induction nodes with
  | nil => intro _ n h; simp at h
  | cons m rest ih =>
    intro hnd n hn
    obtain ⟨hni, hndr⟩ := List.nodup_cons.mp hnd
    rcases List.mem_cons.mp hn with rfl | hmem
    · simp [findA]
    · have hne : m.inst.id ≠ n.inst.id := by
        intro hh
        have hmm : n.inst.id ∈ rest.map (fun n => n.inst.id) :=
          List.mem_map_of_mem _ hmem
        rw [← hh] at hmm
        exact hni hmm
      simp only [List.map_cons, findA, hne, if_neg, if_false]
      exact ih hndr hmem

theorem pluginGraph_isSome {nodes : List PluginExecutionNode}
    (hnd : (nodes.map (fun n => n.inst.id)).Nodup) {i : String} :
    (pluginGraph nodes i).isSome = true ↔
      i ∈ nodes.map (fun n => n.inst.id) := by
  rw [pluginGraph]
  simp only [buildById_of_nodup hnd, Option.isSome_map']
  exact findA_map_assoc

theorem pluginGraph_eq_some {nodes : List PluginExecutionNode}
    (hnd : (nodes.map (fun n => n.inst.id)).Nodup) {i : String}
    {ds : List String} (h : pluginGraph nodes i = some ds) :
    ∃ n, n ∈ nodes ∧ n.inst.id = i ∧ ds = getDependencies n := by
  rw [pluginGraph, buildById_of_nodup hnd] at h
  cases hf : findA (nodes.map (fun m => (m.inst.id, m))) i with
  | none =>
    rw [hf] at h
    simp at h
  | some n =>
    rw [hf] at h
    simp at h
    obtain ⟨h1, h2⟩ := findA_map_assoc_mem hf
    exact ⟨n, h1, h2, h.symm⟩

theorem pluginGraph_of_mem {nodes : List PluginExecutionNode}
    (hnd : (nodes.map (fun n => n.inst.id)).Nodup)
    {n : PluginExecutionNode} (hn : n ∈ nodes) :
    pluginGraph nodes n.inst.id = some (getDependencies n) := by
  rw [pluginGraph, buildById_of_nodup hnd, findA_map_assoc_self hnd hn]
  rfl

end Genesis

namespace Genesis

theorem buildPluginGraph_fold_err {nodes : List PluginExecutionNode}
    {e : SortErr} (h : buildPluginGraph nodes = Except.error e) :
    visitFold (visit (pluginGraph nodes) true (nodes.length + 1))
      (nodes.map (fun n => n.inst.id)) ⟨[], []⟩ = Except.error e := by
  rw [buildPluginGraph] at h
  cases hf : visitFold (visit (pluginGraph nodes) true (nodes.length + 1))
      (nodes.map (fun n => n.inst.id)) ⟨[], []⟩ with
  | error e' =>
    rw [hf] at h
    cases h
    rfl
  | ok st' =>
    rw [hf] at h
    exact Except.noConfusion h

theorem buildPluginGraph_fold_ok {nodes : List PluginExecutionNode}
    {order : List PluginExecutionNode}
    (h : buildPluginGraph nodes = Except.ok order) :
    ∃ st', visitFold (visit (pluginGraph nodes) true (nodes.length + 1))
        (nodes.map (fun n => n.inst.id)) ⟨[], []⟩ = Except.ok st' ∧
      order = st'.result.filterMap (findA (buildById nodes)) := by
  rw [buildPluginGraph] at h
  cases hf : visitFold (visit (pluginGraph nodes) true (nodes.length + 1))
      (nodes.map (fun n => n.inst.id)) ⟨[], []⟩ with
  | error e' =>
    rw [hf] at h
    exact Except.noConfusion h
  | ok st' =>
    rw [hf] at h
    cases h
    exact ⟨st', rfl, rfl⟩

theorem filterMap_byId_spec {nodes : List PluginExecutionNode}
    (hnd : (nodes.map (fun n => n.inst.id)).Nodup) :
    ∀ res : List String,
      (∀ x, x ∈ res → (pluginGraph nodes x).isSome = true) →
      (res.filterMap (findA (buildById nodes))).map (fun n => n.inst.id) =
        res ∧
      ∀ m, m ∈ res.filterMap (findA (buildById nodes)) → m ∈ nodes := by
  intro res
  induction res with
  | nil =>
    intro _
    simp
  | cons x xs ih =>
    intro hsome
    have hx := hsome x (by simp)
    cases hfx : findA (buildById nodes) x with
    | none =>
      rw [pluginGraph, hfx] at hx
      simp at hx
    | some n =>
      have hnmem : n ∈ nodes ∧ n.inst.id = x := by
        rw [buildById_of_nodup hnd] at hfx
        exact findA_map_assoc_mem hfx
      obtain ⟨ihmap, ihmem⟩ := ih (fun y hy => hsome y (List.mem_cons_of_mem _ hy))
      constructor
      · simp [List.filterMap_cons, hfx, ihmap, hnmem.2]
      · intro m hm
        simp only [List.filterMap_cons, hfx] at hm
        rcases List.mem_cons.mp hm with rfl | hm2
        · exact hnmem.1
        · exact ihmem m hm2

/-- C8 counterexample: for two input nodes sharing the instance id "x",
`buildPluginGraph` raises no error yet silently drops the first node:
the returned list is not a linear order over the input nodes. -/
theorem claim_C8_counterexample :
    buildPluginGraph [dupN1, dupN2] = Except.ok [dupN2] ∧
    dupN1 ≠ dupN2 ∧
    dupN1 ∉ [dupN2] ∧
    [dupN1, dupN2].length = 2 := by
  exact ⟨rfl, by decide, by decide, rfl⟩

/-- C8 (amended): for every input list of plugin nodes with distinct
instance ids, `buildPluginGraph` raises a fatal error — and produces no
ordering — exactly when some node lists a dependency id not present
among the input nodes or the dependency relation has a cycle; the
missing error names an undeclared dependency id, the cyclic error names
an id lying on a cycle, fuel exhaustion cannot occur, and otherwise the
returned list is a permutation of the input nodes in which every
dependency precedes its dependent. -/
theorem claim_C8_plugin_graph (nodes : List PluginExecutionNode)
    (hnd : (nodes.map (fun n => n.inst.id)).Nodup) :
    ((∃ e, buildPluginGraph nodes = Except.error e) ↔
      (HasMissingDep nodes ∨ HasCycle (pluginGraph nodes))) ∧
    (∀ x, buildPluginGraph nodes = Except.error (SortErr.missing x) →
      (∃ n, n ∈ nodes ∧ x ∈ getDependencies n) ∧
        x ∉ nodes.map (fun n => n.inst.id)) ∧
    (∀ x, buildPluginGraph nodes = Except.error (SortErr.cyclic x) →
      ∃ p, PathTo (pluginGraph nodes) x p x) ∧
    buildPluginGraph nodes ≠ Except.error SortErr.fuel ∧
    (∀ order, buildPluginGraph nodes = Except.ok order →
      order.Perm nodes ∧
      ∀ l n r, order = l ++ n :: r → ∀ d, d ∈ getDependencies n →
        ∀ m, m ∈ nodes → m.inst.id = d → m ∈ l) := by
  have hfuel : buildPluginGraph nodes ≠ Except.error SortErr.fuel := by
    intro h
    exact topFold_ne_fuel
      (fun i hi => (pluginGraph_isSome hnd).mp hi)
      (by simp) (buildPluginGraph_fold_err h)
  have hmissing : ∀ x,
      buildPluginGraph nodes = Except.error (SortErr.missing x) →
      (∃ n, n ∈ nodes ∧ x ∈ getDependencies n) ∧
        x ∉ nodes.map (fun n => n.inst.id) := by
    intro x h
    obtain ⟨hnone, hor⟩ := topFold_missing (buildPluginGraph_fold_err h)
    have hxnot : x ∉ nodes.map (fun n => n.inst.id) := by
      intro hmem
      have := (pluginGraph_isSome hnd).mpr hmem
      rw [hnone] at this
      simp at this
    refine ⟨?_, hxnot⟩
    rcases hor with hin | ⟨u, hu, hgd⟩
    · exact absurd hin hxnot
    · obtain ⟨ds, hds⟩ := Option.isSome_iff_exists.mp hu
      obtain ⟨n, hn, _, hdeps⟩ := pluginGraph_eq_some hnd hds
      refine ⟨n, hn, ?_⟩
      rw [gdeps, hds] at hgd
      simpa [hdeps] using hgd
  have hcyclic : ∀ x,
      buildPluginGraph nodes = Except.error (SortErr.cyclic x) →
      ∃ p, PathTo (pluginGraph nodes) x p x := by
    intro x h
    exact topFold_cyclic (buildPluginGraph_fold_err h)
  have hokcase : ∀ order, buildPluginGraph nodes = Except.ok order →
      (order.Perm nodes ∧
        (∀ l n r, order = l ++ n :: r → ∀ d, d ∈ getDependencies n →
          ∀ m, m ∈ nodes → m.inst.id = d → m ∈ l)) ∧
      ¬ HasMissingDep nodes ∧ ¬ HasCycle (pluginGraph nodes) := by
    intro order h
    obtain ⟨st', hf, horder⟩ := buildPluginGraph_fold_ok h
    obtain ⟨hndres, hsome, hids, hgood, hclosed⟩ := topFold_ok_spec hf
    have hclosed' := hclosed rfl
    have hmemres : ∀ i, i ∈ st'.result ↔
        (pluginGraph nodes i).isSome = true := by
      intro i
      constructor
      · exact hsome i
      · intro hi
        rcases hids i ((pluginGraph_isSome hnd).mp hi) with hin | hfalse
        · exact hin
        · exact Bool.noConfusion hfalse.2
    obtain ⟨hmap, hmemnodes⟩ := filterMap_byId_spec hnd st'.result hsome
    rw [← horder] at hmap hmemnodes
    have hordernd : order.Nodup := by
      apply List.Nodup.of_map (fun n => n.inst.id)
      rw [hmap]
      exact hndres
    have hnodesnd : nodes.Nodup := List.Nodup.of_map _ hnd
    have hmemorder : ∀ n, n ∈ order ↔ n ∈ nodes := by
      intro n
      constructor
      · exact hmemnodes n
      · intro hn
        have hires : n.inst.id ∈ st'.result :=
          (hmemres _).mpr ((pluginGraph_isSome hnd).mpr
            (List.mem_map_of_mem _ hn))
        rw [horder]
        apply List.mem_filterMap.mpr
        refine ⟨n.inst.id, hires, ?_⟩
        rw [buildById_of_nodup hnd]
        exact findA_map_assoc_self hnd hn
    have hperm : order.Perm nodes :=
      (List.perm_ext_iff_of_nodup hordernd hnodesnd).mpr hmemorder
    refine ⟨⟨hperm, ?_⟩, ?_, ?_⟩
    · intro l n r hsplit d hd m hm hmid
      have hnnodes : n ∈ nodes := by
        apply (hmemorder n).mp
        rw [hsplit]
        simp
      have hressplit : st'.result =
          l.map (fun n => n.inst.id) ++ n.inst.id ::
            r.map (fun n => n.inst.id) := by
        rw [← hmap, hsplit]
        simp
      have hgds : d ∈ gdeps (pluginGraph nodes) n.inst.id := by
        rw [gdeps, pluginGraph_of_mem hnd hnnodes]
        simpa using hd
      have hdsome : (pluginGraph nodes d).isSome = true := by
        apply (pluginGraph_isSome hnd).mpr
        rw [← hmid]
        exact List.mem_map_of_mem _ hm
      have hdl := hgood _ _ _ hressplit d hgds hdsome
      obtain ⟨m', hm'l, hm'id⟩ := List.mem_map.mp hdl
      have hmm : m' = m := by
        have h1 := findA_map_assoc_self hnd ((hmemorder m').mp
          (by rw [hsplit]; exact List.mem_append.mpr (Or.inl hm'l)))
        have h2 := findA_map_assoc_self hnd hm
        rw [hm'id, ← hmid] at h1
        rw [h1] at h2
        exact (Option.some.injEq _ _ ▸ h2)
      rw [← hmm]
      exact hm'l
    · rintro ⟨n, d, hn, hd, hdnot⟩
      have hires : n.inst.id ∈ st'.result :=
        (hmemres _).mpr ((pluginGraph_isSome hnd).mpr
          (List.mem_map_of_mem _ hn))
      have hgds : d ∈ gdeps (pluginGraph nodes) n.inst.id := by
        rw [gdeps, pluginGraph_of_mem hnd hn]
        simpa using hd
      have hdres := hclosed' _ hires d hgds
      have := hsome d hdres
      exact hdnot ((pluginGraph_isSome hnd).mp this)
    · exact noCycle_of_goodRes hgood
        (fun y hy => (hmemres y).mpr hy)
  refine ⟨?_, hmissing, hcyclic, hfuel, fun order h => (hokcase order h).1⟩
  constructor
  · rintro ⟨e, he⟩
    cases e with
    | missing x =>
      obtain ⟨⟨n, hn, hd⟩, hnot⟩ := hmissing x he
      exact Or.inl ⟨n, x, hn, hd, hnot⟩
    | cyclic x =>
      obtain ⟨p, hp⟩ := hcyclic x he
      exact Or.inr ⟨x, p, hp⟩
    | fuel => exact absurd he hfuel
  · intro hmc
    cases hb : buildPluginGraph nodes with
    | error e => exact ⟨e, rfl⟩
    | ok order =>
      obtain ⟨_, hnm, hnc⟩ := hokcase order hb
      rcases hmc with hm | hc
      · exact absurd hm hnm
      · exact absurd hc hnc

/-- C8 witness: the amended theorem applied to the concrete two-node
list where X depends on the declared plugin Y. -/
theorem claim_C8_plugin_graph_witness :
    ((∃ e, buildPluginGraph nodesW = Except.error e) ↔
      (HasMissingDep nodesW ∨ HasCycle (pluginGraph nodesW))) ∧
    (∀ x, buildPluginGraph nodesW = Except.error (SortErr.missing x) →
      (∃ n, n ∈ nodesW ∧ x ∈ getDependencies n) ∧
        x ∉ nodesW.map (fun n => n.inst.id)) ∧
    (∀ x, buildPluginGraph nodesW = Except.error (SortErr.cyclic x) →
      ∃ p, PathTo (pluginGraph nodesW) x p x) ∧
    buildPluginGraph nodesW ≠ Except.error SortErr.fuel ∧
    (∀ order, buildPluginGraph nodesW = Except.ok order →
      order.Perm nodesW ∧
      ∀ l n r, order = l ++ n :: r → ∀ d, d ∈ getDependencies n →
        ∀ m, m ∈ nodesW → m.inst.id = d → m ∈ l) :=
  claim_C8_plugin_graph nodesW (by decide)

end Genesis

namespace Genesis

/-! ## Lifecycle phase loops -/

theorem runDetectFrom_spec :
    ∀ (nodes : List PluginExecutionNode) (k : Nat) (acc : List DetectSummary)
      (inv : List Nat) {s : List DetectSummary} {inv' : List Nat},
      runDetectFrom nodes k acc inv = (Except.ok s, inv') →
      (∃ tail, s = acc ++ tail ∧
        List.Forall₂ (fun n sm => n.plugin.detect = none →
          sm = trivialDetectSummary n) nodes tail) ∧
      (∃ ext, inv' = inv ++ ext ∧
        ∀ m, m ∈ ext → k ≤ m ∧
          ∃ nd, nodes.get? (m - k) = some nd ∧ nd.plugin.detect ≠ none) := by
  intro nodes
  induction nodes with
  | nil =>
    intro k acc inv s inv' h
    simp only [runDetectFrom, Prod.mk.injEq] at h
    obtain ⟨h1, h2⟩ := h
    cases h1
    exact ⟨⟨[], by simp, List.Forall₂.nil⟩, ⟨[], by simp [h2], by simp⟩⟩
  | cons n rest ih =>
    intro k acc inv s inv' h
    cases hd : n.plugin.detect with
    | none =>
      simp only [runDetectFrom, hd] at h
      obtain ⟨⟨tail, hs, hf⟩, ⟨ext, hinv, hext⟩⟩ := ih (k + 1) _ _ h
      refine ⟨⟨trivialDetectSummary n :: tail, by rw [hs]; simp,
        List.Forall₂.cons (fun _ => rfl) hf⟩, ⟨ext, hinv, ?_⟩⟩
      intro m hm
      obtain ⟨hk, nd, hnd, hdet⟩ := hext m hm
      refine ⟨by omega, nd, ?_, hdet⟩
      have hmk : m - k = (m - (k + 1)) + 1 := by omega
      rw [hmk]
      simpa using hnd
    | some pb =>
      cases pb with
      | throws msg =>
        simp only [runDetectFrom, hd, Prod.mk.injEq] at h
        exact Except.noConfusion h.1
      | ret r =>
        simp only [runDetectFrom, hd] at h
        obtain ⟨⟨tail, hs, hf⟩, ⟨ext, hinv, hext⟩⟩ := ih (k + 1) _ _ h
        refine ⟨⟨detectSummaryOf n r :: tail, by rw [hs]; simp,
          List.Forall₂.cons (fun hnone => by rw [hd] at hnone; cases hnone)
            hf⟩, ⟨k :: ext, by rw [hinv]; simp, ?_⟩⟩
        intro m hm
        rcases List.mem_cons.mp hm with rfl | hm2
        · exact ⟨Nat.le_refl m, n, by simp, by rw [hd]; simp⟩
        · obtain ⟨hk, nd, hnd, hdet⟩ := hext m hm2
          refine ⟨by omega, nd, ?_, hdet⟩
          have hmk : m - k = (m - (k + 1)) + 1 := by omega
          rw [hmk]
          simpa using hnd

theorem runApplyFrom_spec :
    ∀ (nodes : List PluginExecutionNode) (k : Nat) (acc : List ApplySummary)
      (inv : List Nat) {s : List ApplySummary} {inv' : List Nat},
      runApplyFrom nodes k acc inv = (Except.ok s, inv') →
      (∃ tail, s = acc ++ tail ∧
        List.Forall₂ (fun n sm => n.plugin.apply = none →
          sm = trivialApplySummary n) nodes tail) ∧
      (∃ ext, inv' = inv ++ ext ∧
        ∀ m, m ∈ ext → k ≤ m ∧
          ∃ nd, nodes.get? (m - k) = some nd ∧ nd.plugin.apply ≠ none) := by
  intro nodes
  induction nodes with
  | nil =>
    intro k acc inv s inv' h
    simp only [runApplyFrom, Prod.mk.injEq] at h
    obtain ⟨h1, h2⟩ := h
    cases h1
    exact ⟨⟨[], by simp, List.Forall₂.nil⟩, ⟨[], by simp [h2], by simp⟩⟩
  | cons n rest ih =>
    intro k acc inv s inv' h
    cases hd : n.plugin.apply with
    | none =>
      simp only [runApplyFrom, hd] at h
      obtain ⟨⟨tail, hs, hf⟩, ⟨ext, hinv, hext⟩⟩ := ih (k + 1) _ _ h
      refine ⟨⟨trivialApplySummary n :: tail, by rw [hs]; simp,
        List.Forall₂.cons (fun _ => rfl) hf⟩, ⟨ext, hinv, ?_⟩⟩
      intro m hm
      obtain ⟨hk, nd, hnd, hdet⟩ := hext m hm
      refine ⟨by omega, nd, ?_, hdet⟩
      have hmk : m - k = (m - (k + 1)) + 1 := by omega
      rw [hmk]
      simpa using hnd
    | some pb =>
      cases pb with
      | throws msg =>
        simp only [runApplyFrom, hd, Prod.mk.injEq] at h
        exact Except.noConfusion h.1
      | ret r =>
        simp only [runApplyFrom, hd] at h
        obtain ⟨⟨tail, hs, hf⟩, ⟨ext, hinv, hext⟩⟩ := ih (k + 1) _ _ h
        refine ⟨⟨applySummaryOf n r :: tail, by rw [hs]; simp,
          List.Forall₂.cons (fun hnone => by rw [hd] at hnone; cases hnone)
            hf⟩, ⟨k :: ext, by rw [hinv]; simp, ?_⟩⟩
        intro m hm
        rcases List.mem_cons.mp hm with rfl | hm2
        · exact ⟨Nat.le_refl m, n, by simp, by rw [hd]; simp⟩
        · obtain ⟨hk, nd, hnd, hdet⟩ := hext m hm2
          refine ⟨by omega, nd, ?_, hdet⟩
          have hmk : m - k = (m - (k + 1)) + 1 := by omega
          rw [hmk]
          simpa using hnd

theorem runValidateFrom_spec :
    ∀ (nodes : List PluginExecutionNode) (k : Nat)
      (acc : List ValidateSummary) (inv : List Nat)
      {s : List ValidateSummary} {inv' : List Nat},
      runValidateFrom nodes k acc inv = (Except.ok s, inv') →
      (∃ tail, s = acc ++ tail ∧
        List.Forall₂ (fun n sm => n.plugin.validate = none →
          sm = trivialValidateSummary n) nodes tail) ∧
      (∃ ext, inv' = inv ++ ext ∧
        ∀ m, m ∈ ext → k ≤ m ∧
          ∃ nd, nodes.get? (m - k) = some nd ∧ nd.plugin.validate ≠ none) := by
  intro nodes
  induction nodes with
  | nil =>
    intro k acc inv s inv' h
    simp only [runValidateFrom, Prod.mk.injEq] at h
    obtain ⟨h1, h2⟩ := h
    cases h1
    exact ⟨⟨[], by simp, List.Forall₂.nil⟩, ⟨[], by simp [h2], by simp⟩⟩
  | cons n rest ih =>
    intro k acc inv s inv' h
    cases hd : n.plugin.validate with
    | none =>
      simp only [runValidateFrom, hd] at h
      obtain ⟨⟨tail, hs, hf⟩, ⟨ext, hinv, hext⟩⟩ := ih (k + 1) _ _ h
      refine ⟨⟨trivialValidateSummary n :: tail, by rw [hs]; simp,
        List.Forall₂.cons (fun _ => rfl) hf⟩, ⟨ext, hinv, ?_⟩⟩
      intro m hm
      obtain ⟨hk, nd, hnd, hdet⟩ := hext m hm
      refine ⟨by omega, nd, ?_, hdet⟩
      have hmk : m - k = (m - (k + 1)) + 1 := by omega
      rw [hmk]
      simpa using hnd
    | some pb =>
      cases pb with
      | throws msg =>
        simp only [runValidateFrom, hd, Prod.mk.injEq] at h
        exact Except.noConfusion h.1
      | ret r =>
        simp only [runValidateFrom, hd] at h
        obtain ⟨⟨tail, hs, hf⟩, ⟨ext, hinv, hext⟩⟩ := ih (k + 1) _ _ h
        refine ⟨⟨validateSummaryOf n r :: tail, by rw [hs]; simp,
          List.Forall₂.cons (fun hnone => by rw [hd] at hnone; cases hnone)
            hf⟩, ⟨k :: ext, by rw [hinv]; simp, ?_⟩⟩
        intro m hm
        rcases List.mem_cons.mp hm with rfl | hm2
        · exact ⟨Nat.le_refl m, n, by simp, by rw [hd]; simp⟩
        · obtain ⟨hk, nd, hnd, hdet⟩ := hext m hm2
          refine ⟨by omega, nd, ?_, hdet⟩
          have hmk : m - k = (m - (k + 1)) + 1 := by omega
          rw [hmk]
          simpa using hnd

end Genesis

namespace Genesis

theorem runApply_dissect_ok {nodes : List PluginExecutionNode}
    {reg : TaskRegistry} {s : List ApplySummary}
    (h : (runApply nodes reg).outcome = Except.ok s) :
    runApplyFrom nodes 0 [] [] =
      (Except.ok s, (runApply nodes reg).applyInvoked) := by
  cases hout : (registerAllTasks nodes reg).executeAll.outcome with
  | error e =>
    rw [runApply] at h
    simp only [hout] at h
    exact Except.noConfusion h
  | ok rres =>
    have h1 : (runApply nodes reg).outcome = (runApplyFrom nodes 0 [] []).1 := by
      rw [runApply]
      simp only [hout]
    have h2 : (runApply nodes reg).applyInvoked =
        (runApplyFrom nodes 0 [] []).2 := by
      rw [runApply]
      simp only [hout]
    rw [h1] at h
    rw [h2, ← h]

/-- C9: a plugin node that omits a lifecycle method is treated as
trivially successful by the corresponding phase: whenever the phase
completes, the summary list pairs each omitting node (positionally)
with the trivial summary — `status: unknown` for detect, `ok: true,
didChange: false` for apply, `ok: true` for validate — and the node's
index never appears in the invocation trace of that phase (every
invoked index belongs to a node that provides the method). -/
theorem claim_C9_omitted_lifecycle :
    (∀ (nodes : List PluginExecutionNode) s inv,
      runDetect nodes = (Except.ok s, inv) →
      List.Forall₂ (fun n sm => n.plugin.detect = none →
        sm = trivialDetectSummary n) nodes s ∧
      ∀ m, m ∈ inv →
        ∃ nd, nodes.get? m = some nd ∧ nd.plugin.detect ≠ none) ∧
    (∀ (nodes : List PluginExecutionNode) (reg : TaskRegistry) s,
      (runApply nodes reg).outcome = Except.ok s →
      List.Forall₂ (fun n sm => n.plugin.apply = none →
        sm = trivialApplySummary n) nodes s ∧
      ∀ m, m ∈ (runApply nodes reg).applyInvoked →
        ∃ nd, nodes.get? m = some nd ∧ nd.plugin.apply ≠ none) ∧
    (∀ (nodes : List PluginExecutionNode) s inv,
      runValidate nodes = (Except.ok s, inv) →
      List.Forall₂ (fun n sm => n.plugin.validate = none →
        sm = trivialValidateSummary n) nodes s ∧
      ∀ m, m ∈ inv →
        ∃ nd, nodes.get? m = some nd ∧ nd.plugin.validate ≠ none) := by
  refine ⟨?_, ?_, ?_⟩
  · intro nodes s inv h
    obtain ⟨⟨tail, hs, hf⟩, ⟨ext, hinv, hext⟩⟩ :=
      runDetectFrom_spec nodes 0 [] [] h
    rw [hs]
    refine ⟨by simpa using hf, ?_⟩
    intro m hm
    rw [hinv] at hm
    simp only [List.nil_append] at hm
    obtain ⟨_, nd, hnd, hdet⟩ := hext m hm
    exact ⟨nd, by simpa using hnd, hdet⟩
  · intro nodes reg s h
    have hd := runApply_dissect_ok h
    obtain ⟨⟨tail, hs, hf⟩, ⟨ext, hinv, hext⟩⟩ :=
      runApplyFrom_spec nodes 0 [] [] hd
    rw [hs]
    refine ⟨by simpa using hf, ?_⟩
    intro m hm
    rw [hinv] at hm
    simp only [List.nil_append] at hm
    obtain ⟨_, nd, hnd, hdet⟩ := hext m hm
    exact ⟨nd, by simpa using hnd, hdet⟩
  · intro nodes s inv h
    obtain ⟨⟨tail, hs, hf⟩, ⟨ext, hinv, hext⟩⟩ :=
      runValidateFrom_spec nodes 0 [] [] h
    rw [hs]
    refine ⟨by simpa using hf, ?_⟩
    intro m hm
    rw [hinv] at hm
    simp only [List.nil_append] at hm
    obtain ⟨_, nd, hnd, hdet⟩ := hext m hm
    exact ⟨nd, by simpa using hnd, hdet⟩

/-- C9 witness: no hypotheses to discharge besides applying the theorem
to the concrete list whose first node omits every lifecycle method —
the summaries and traces are evaluated on it. -/
theorem claim_C9_omitted_lifecycle_witness :
    (List.Forall₂ (fun n sm => n.plugin.detect = none →
        sm = trivialDetectSummary n) nodesOmit
      [trivialDetectSummary pOmit, detectSummaryOf pOk { ok := true }] ∧
      ∀ m, m ∈ [1] →
        ∃ nd, nodesOmit.get? m = some nd ∧ nd.plugin.detect ≠ none) ∧
    (List.Forall₂ (fun n sm => n.plugin.apply = none →
        sm = trivialApplySummary n) nodesOmit
      [trivialApplySummary pOmit,
        applySummaryOf pOk { ok := true, didChange := true }] ∧
      ∀ m, m ∈ (runApply nodesOmit emptyRegistry).applyInvoked →
        ∃ nd, nodesOmit.get? m = some nd ∧ nd.plugin.apply ≠ none) ∧
    (List.Forall₂ (fun n sm => n.plugin.validate = none →
        sm = trivialValidateSummary n) nodesOmit
      [trivialValidateSummary pOmit, validateSummaryOf pOk { ok := true }] ∧
      ∀ m, m ∈ [1] →
        ∃ nd, nodesOmit.get? m = some nd ∧ nd.plugin.validate ≠ none) :=
  ⟨claim_C9_omitted_lifecycle.1 nodesOmit
      [trivialDetectSummary pOmit, detectSummaryOf pOk { ok := true }] [1]
      rfl,
    claim_C9_omitted_lifecycle.2.1 nodesOmit emptyRegistry
      [trivialApplySummary pOmit,
        applySummaryOf pOk { ok := true, didChange := true }] rfl,
    claim_C9_omitted_lifecycle.2.2 nodesOmit
      [trivialValidateSummary pOmit, validateSummaryOf pOk { ok := true }]
      [1] rfl⟩

/-- C4: the claim states the intended behaviour (documented in the
repository's plugin guide): a throwing lifecycle method should be
recorded as a failed summary and the phase should continue with the
remaining plugins.  The code has no try/catch around the lifecycle
calls, so the exception propagates: on the concrete two-node list where
the first plugin's detect/apply/validate all throw, every phase runner
returns the error, produces no summaries, and never invokes the second
(succeeding) plugin — its invocation trace stops at index 0 even though
the second node provides every method. -/
theorem claim_C4_lifecycle_throw_halts :
    runDetect nodesThrow = (Except.error "dboom", [0]) ∧
    (runApply nodesThrow emptyRegistry).outcome =
      Except.error (RunErr.pluginThrew "boom") ∧
    (runApply nodesThrow emptyRegistry).applyInvoked = [0] ∧
    runValidate nodesThrow = (Except.error "vboom", [0]) ∧
    pOk.plugin.detect ≠ none ∧
    pOk.plugin.apply ≠ none ∧
    pOk.plugin.validate ≠ none := by
  exact ⟨rfl, rfl, rfl, rfl, by decide, by decide, by decide⟩

end Genesis
